import Mathlib

namespace BJecs

/-!
# Verification of the bJecs ECS world store

Shallow embedding of the archetype-based `WorldImpl` from `src/ecs/query.ts`
(together with `GroupImpl` from `src/ecs/group.ts`, `createSnapshot` from
`src/ecs/snapshot.ts` and the `Event` publish/subscribe class), and proofs
about it.

Modelling conventions:
* JavaScript/roblox-ts `Map` objects are embedded as insertion-ordered
  association lists (`List (Nat × V)`): `set` updates the first occurrence in
  place or appends, `get` reads the first occurrence, `delete` removes the
  key, iteration follows list order.  `Set` objects are insertion-ordered
  duplicate-free lists (`add` appends when absent, `delete` filters).
* `EntityId`, `Id` and group ids are `Nat`.
* Component values are an arbitrary type `V`.  The deep-clone collaborator
  (`deepClone`, a JSON encode/decode round-trip) is the identity on the plain
  data the core assumes component values to be, so cloning a value is
  modelled as the value itself; cloning a table is modelled by the source's
  own entry-by-entry rebuild loop.
* Throwing `error(...)` aborts the call before any mutation, so a call that
  throws leaves the world state unchanged; we model such calls as returning
  the unchanged state.
-/

/-- `Map.get`: value at the first occurrence of key `k`, if any. -/
def aget {K V : Type} [DecidableEq K] (m : List (K × V)) (k : K) : Option V :=
  match m with
  | [] => none
  | (k1, v) :: r => if k1 = k then some v else aget r k

/-- `Map.has`. -/
def ahas {K V : Type} [DecidableEq K] (m : List (K × V)) (k : K) : Bool :=
  match m with
  | [] => false
  | (k1, _) :: r => k1 = k || ahas r k

/-- `Map.set`: update the first occurrence of `k` in place, else append. -/
def aset {K V : Type} [DecidableEq K] (m : List (K × V)) (k : K) (v : V) : List (K × V) :=
  match m with
  | [] => [(k, v)]
  | (k1, v1) :: r => if k1 = k then (k1, v) :: r else (k1, v1) :: aset r k v

/-- `Map.delete` (drops every occurrence of the key; JS maps never hold
duplicates, so this coincides with deleting the unique entry). -/
def adel {K V : Type} [DecidableEq K] (m : List (K × V)) (k : K) : List (K × V) :=
  m.filter (fun p => p.1 ≠ k)

/-- Keys of a map, in iteration order. -/
def akeys {K V : Type} (m : List (K × V)) : List K := m.map (fun p => p.1)

/-- `Set.add`: append when absent. -/
def sadd (s : List Nat) (e : Nat) : List Nat := if e ∈ s then s else s ++ [e]

/-- `Set.delete`. -/
def sdel (s : List Nat) (e : Nat) : List Nat := s.filter (fun x => x ≠ e)

/-! ## The world state (`WorldImpl` fields, `src/ecs/query.ts`)

Group objects (`GroupImpl`, `src/ecs/group.ts`) are identified by the id the
class constructor allocates from its `nextId` counter; a group's `entities`
set and `components` map live in the `groupEntities` / `groupComponents`
tables keyed by that id.  The event handlers `createGroup` connects to a
group's `onEntityAdded` / `onEntityRemoved` events are inlined into the
membership operations, since event delivery is synchronous. -/

structure World (V : Type) where
  nextEntityId : Nat
  entities : List Nat
  components : List (Nat × List (Nat × V))
  nextGroupId : Nat
  groups : List Nat
  groupEntities : List (Nat × List Nat)
  groupComponents : List (Nat × List (Nat × V))
  entityToGroups : List (Nat × List Nat)
  archetypeToEntities : List (String × List Nat)
  entityToArchetype : List (Nat × String)
  deriving Repr

/-- The state of a freshly constructed `WorldImpl`. -/
def initWorld (V : Type) : World V :=
  { nextEntityId := 1, entities := [], components := [], nextGroupId := 1,
    groups := [], groupEntities := [], groupComponents := [],
    entityToGroups := [], archetypeToEntities := [], entityToArchetype := [] }

/-! ## Archetype signatures -/

/-- Insert into a sorted list, keeping ascending order. -/
def insertSorted (x : Nat) : List Nat → List Nat
  | [] => [x]
  | y :: ys => if x ≤ y then x :: y :: ys else y :: insertSorted x ys

/-- Ascending sort; models the manual exchange sort in
`generateArchetypeSignature`, which also produces the ascending ordering of
the (distinct) component ids. -/
def sortIds (l : List Nat) : List Nat := l.foldr insertSorted []

/-- `generateArchetypeSignature`: sort the component ids and join their
decimal representations with `'|'`.  (The source first copies the key set
into an array; keys of a map are already distinct.) -/
def generateArchetypeSignature (ids : List Nat) : String :=
  String.intercalate "|" ((sortIds ids).map (fun n => Nat.repr n))

/-- Splitting a string on `'|'`, character by character: the model of the
`signature.split('|')` call. -/
def splitPipeGo (cur : List Char) : List Char → List String
  | [] => [String.mk cur.reverse]
  | ch :: rest =>
      if ch = '|' then String.mk cur.reverse :: splitPipeGo [] rest
      else splitPipeGo (ch :: cur) rest

def splitPipe (s : String) : List String := splitPipeGo [] s.data

/-- Decimal digit value. -/
def digitVal (ch : Char) : Option Nat :=
  if '0' ≤ ch ∧ ch ≤ '9' then some (ch.toNat - '0'.toNat) else none

def tonumberGo (acc : Nat) : List Char → Option Nat
  | [] => some acc
  | ch :: rest =>
      match digitVal ch with
      | some d => tonumberGo (acc * 10 + d) rest
      | none => none

/-- `tonumber` on a decimal token (`none` models a failed conversion, which
the source maps to `0` via `|| 0`). -/
def tonumberNat (s : String) : Option Nat :=
  if s.data.isEmpty then none else tonumberGo 0 s.data

/-- Signature parsing done inside `getMatchingEntities`:
`signature.split('|').map(id => tonumber(id) || 0).filter(id => id > 0)`. -/
def parseSignature (s : String) : List Nat :=
  ((splitPipe s).map (fun t => (tonumberNat t).getD 0)).filter (fun n => 0 < n)

/-- Remove an entity from a signature bucket, deleting the bucket when it
becomes empty (the shared cleanup step of `updateEntityArchetype`). -/
def bucketRemove (m : List (String × List Nat)) (a : String) (e : Nat) :
    List (String × List Nat) :=
  match aget m a with
  | none => m
  | some s =>
      let s1 := sdel s e
      if s1 = [] then adel m a else aset m a s1

/-- `updateEntityArchetype`: recompute the entity's signature from its own
component table and migrate it between buckets. -/
def updateEntityArchetype {V : Type} (e : Nat) (w : World V) : World V :=
  let oldA := aget w.entityToArchetype e
  let clear : World V :=
    match oldA with
    | some a =>
        { w with archetypeToEntities := bucketRemove w.archetypeToEntities a e,
                 entityToArchetype := adel w.entityToArchetype e }
    | none => w
  match aget w.components e with
  | none => clear
  | some comps =>
      if comps.isEmpty then clear
      else
        let newA := generateArchetypeSignature (akeys comps)
        if oldA = some newA then w
        else
          let m1 := match oldA with
            | some a => bucketRemove w.archetypeToEntities a e
            | none => w.archetypeToEntities
          let m2 := if ahas m1 newA then m1 else aset m1 newA []
          let m3 := aset m2 newA (sadd ((aget m2 newA).getD []) e)
          { w with archetypeToEntities := m3,
                   entityToArchetype := aset w.entityToArchetype e newA }

/-! ## Entity lifecycle and component access -/

/-- `spawn`: allocate the next id, add it to the entity set with an empty
component table, return it (the fired `EntitySpawned` event carries no state). -/
def spawnW {V : Type} (w : World V) : World V × Nat :=
  let e := w.nextEntityId
  ({ w with nextEntityId := e + 1,
            entities := sadd w.entities e,
            components := aset w.components e [] }, e)

/-- `valid`. -/
def validW {V : Type} (w : World V) (e : Nat) : Bool := e ∈ w.entities

/-- The group-detach loop at the start of `despawn`: for every group in
`entityToGroups[e]`, `group.removeEntity(e)` (whose `onEntityRemoved`
handler deletes the group from `entityToGroups[e]`, a set `despawn` deletes
wholesale afterwards anyway). -/
def despawnGroups {V : Type} (e : Nat) (w : World V) : World V :=
  match aget w.entityToGroups e with
  | none => w
  | some gs =>
      { w with
        groupEntities :=
          gs.foldl (fun m g =>
            match aget m g with
            | some members => aset m g (sdel members e)
            | none => m) w.groupEntities,
        entityToGroups := adel w.entityToGroups e }

/-- `despawn`: detach from groups, then (if the component table is present)
delete the entity and its table.  The component-removed and despawned events
carry no state.  Note that the archetype index is not touched. -/
def despawnW {V : Type} (e : Nat) (w : World V) : World V × Bool :=
  if e ∈ w.entities then
    let w1 := despawnGroups e w
    match aget w1.components e with
    | none => (w1, false)
    | some _ =>
        ({ w1 with entities := sdel w1.entities e,
                   components := adel w1.components e }, true)
  else (w, false)

/-- `set`: `error` on a dead entity (state unchanged), otherwise write the
value into the entity's own table and migrate its archetype. -/
def setComp {V : Type} (e c : Nat) (v : V) (w : World V) : World V :=
  if e ∈ w.entities then
    match aget w.components e with
    | none => w
    | some comps =>
        updateEntityArchetype e
          { w with components := aset w.components e (aset comps c v) }
  else w

/-- `remove`: delete from the entity's own table only; migrate the archetype
and fire `ComponentRemoved` only when the key was present. -/
def removeComp {V : Type} (e c : Nat) (w : World V) : World V × Bool :=
  if e ∈ w.entities then
    match aget w.components e with
    | none => (w, false)
    | some comps =>
        if ahas comps c then
          (updateEntityArchetype e
            { w with components := aset w.components e (adel comps c) }, true)
        else (w, false)
  else (w, false)

/-- The group-overlay fallback of `get`: first group in iteration order whose
table has the component wins. -/
def groupGet {V : Type} (w : World V) (gs : List Nat) (c : Nat) : Option V :=
  match gs with
  | [] => none
  | g :: rest =>
      let tbl := (aget w.groupComponents g).getD []
      if ahas tbl c then aget tbl c else groupGet w rest c

/-- `get`: own table first, then the groups the entity belongs to. -/
def getComp {V : Type} (w : World V) (e c : Nat) : Option V :=
  if e ∈ w.entities then
    let own : Option V :=
      match aget w.components e with
      | some comps => if ahas comps c then aget comps c else none
      | none => none
    match own with
    | some v => some v
    | none => groupGet w ((aget w.entityToGroups e).getD []) c
  else none

/-- The group-overlay fallback of `has`. -/
def groupHas {V : Type} (w : World V) (gs : List Nat) (c : Nat) : Bool :=
  match gs with
  | [] => false
  | g :: rest =>
      if ahas ((aget w.groupComponents g).getD []) c then true
      else groupHas w rest c

/-- `has`: same two-tier resolution as `get`, boolean form. -/
def hasComp {V : Type} (w : World V) (e c : Nat) : Bool :=
  if e ∈ w.entities then
    match aget w.components e with
    | some comps =>
        if ahas comps c then true
        else groupHas w ((aget w.entityToGroups e).getD []) c
    | none => groupHas w ((aget w.entityToGroups e).getD []) c
  else false

/-! ## The query engine -/

/-- `getMatchingEntities`: with an empty required list, filter all live
entities by the exclusion list against their own tables; otherwise walk the
archetype buckets, parse each signature, keep buckets that contain every
required id and no excluded id, and union their entity sets. -/
def getMatchingEntities {V : Type} (w : World V) (required excluded : List Nat) :
    List Nat :=
  if required.isEmpty then
    w.entities.filter (fun e =>
      match aget w.components e with
      | none => false
      | some comps => !(excluded.any (fun c => ahas comps c)))
  else
    let matching := (w.archetypeToEntities.map (fun p => p.1)).filter (fun a =>
      let parsed := parseSignature a
      required.all (fun r => parsed.contains r) &&
        !(excluded.any (fun x => parsed.contains x)))
    matching.foldl (fun acc a =>
      match aget w.archetypeToEntities a with
      | some es => es.foldl sadd acc
      | none => acc) []

/-- `each`, materialized as `collect` does: one `(entity, values)` pair per
matching entity whose component table is present, the values read from the
entity's own table in required-list order. -/
def queryCollect {V : Type} (w : World V) (required excluded : List Nat) :
    List (Nat × List (Option V)) :=
  (getMatchingEntities w required excluded).filterMap (fun e =>
    (aget w.components e).map (fun comps =>
      (e, required.map (fun c => aget comps c))))

/-! ## Groups -/

/-- `createGroup`: construct a `GroupImpl` (fresh id, empty membership and
table), register it, and connect the membership handlers (inlined into
`groupAddEntity` / `groupRemoveEntity` / `despawnGroups`). -/
def createGroupW {V : Type} (w : World V) : World V × Nat :=
  let g := w.nextGroupId
  ({ w with nextGroupId := g + 1,
            groups := sadd w.groups g,
            groupEntities := aset w.groupEntities g [],
            groupComponents := aset w.groupComponents g [] }, g)

/-- `GroupImpl.addEntity` on a constructed group, with the world's
`onEntityAdded` handler inlined: when the entity is not yet a member, add it
and record the group in `entityToGroups`.  No liveness check. -/
def groupAddEntity {V : Type} (g e : Nat) (w : World V) : World V :=
  match aget w.groupEntities g with
  | none => w
  | some members =>
      if e ∈ members then w
      else
        { w with
          groupEntities := aset w.groupEntities g (members ++ [e]),
          entityToGroups :=
            aset w.entityToGroups e (sadd ((aget w.entityToGroups e).getD []) g) }

/-- `GroupImpl.removeEntity` with the world's `onEntityRemoved` handler
inlined: drop the member and the reverse-index entry (deleting the entry
when its set becomes empty). -/
def groupRemoveEntity {V : Type} (g e : Nat) (w : World V) : World V :=
  match aget w.groupEntities g with
  | none => w
  | some members =>
      if e ∈ members then
        let w1 := { w with groupEntities := aset w.groupEntities g (sdel members e) }
        match aget w1.entityToGroups e with
        | none => w1
        | some gs =>
            let gs1 := sdel gs g
            { w1 with entityToGroups :=
                if gs1 = [] then adel w1.entityToGroups e
                else aset w1.entityToGroups e gs1 }
      else w

/-- `removeGroup`: remove every member (via `removeEntity`, so the reverse
index stays in sync), then unregister the group. -/
def removeGroupW {V : Type} (g : Nat) (w : World V) : World V :=
  if g ∈ w.groups then
    let members := (aget w.groupEntities g).getD []
    let w1 := members.foldl (fun acc e => groupRemoveEntity g e acc) w
    { w1 with groups := sdel w1.groups g }
  else w

/-- `Group.set` on a constructed group's own table. -/
def groupSetComp {V : Type} (g c : Nat) (v : V) (w : World V) : World V :=
  match aget w.groupComponents g with
  | none => w
  | some tbl => { w with groupComponents := aset w.groupComponents g (aset tbl c v) }

/-- `Group.remove` on a constructed group's own table. -/
def groupRemoveComp {V : Type} (g c : Nat) (w : World V) : World V :=
  match aget w.groupComponents g with
  | none => w
  | some tbl => { w with groupComponents := aset w.groupComponents g (adel tbl c) }

/-- `getGroupsForEntity`: copy of the reverse-index entry. -/
def getGroupsForEntity {V : Type} (w : World V) (e : Nat) : List Nat :=
  (aget w.entityToGroups e).getD []

/-! ## Snapshots (`createSnapshot`, `src/ecs/snapshot.ts`)

The snapshot's `id` (from `generateId`) and `timestamp` (from `os.clock()`)
are never read by `revert` and are omitted from the embedding. -/

structure Snap (V : Type) where
  entityStates : List (Nat × List (Nat × V))
  components : Option (List Nat)
  deriving Repr

/-- The per-entity capture loop body of `createSnapshot`: the full branch
rebuilds the table entry by entry (deep-cloning values), the filtered branch
keeps only present filter components and registers the entity only when at
least one was captured.  (The source reads `componentsMap.get(entity)!`;
an entity without a table — impossible in a well-formed world — is skipped.) -/
def createSnapshot {V : Type} (entities : List Nat)
    (componentsMap : List (Nat × List (Nat × V))) (filter : Option (List Nat)) :
    Snap V :=
  let entityStates := entities.foldl (fun st e =>
    match aget componentsMap e with
    | none => st
    | some comps =>
        match filter with
        | some fl =>
            if fl.isEmpty then
              aset st e (comps.foldl (fun cl p => aset cl p.1 p.2) [])
            else
              let cloned := fl.foldl (fun cl c =>
                match aget comps c with
                | some v => aset cl c v
                | none => cl) []
              if cloned.isEmpty then st else aset st e cloned
        | none => aset st e (comps.foldl (fun cl p => aset cl p.1 p.2) [])) []
  { entityStates := entityStates, components := filter }

/-- `WorldImpl.snapshot` — always returns a `Snap`; `createSnapshot` has no
`undefined` path. -/
def snapshotW {V : Type} (w : World V) (filter : Option (List Nat)) : Snap V :=
  createSnapshot w.entities w.components filter

/-! ## Revert -/

/-- Does `revert` treat the snapshot as filtered
(`snapshot.components && snapshot.components.size() > 0`)? -/
def snapIsFiltered {V : Type} (s : Snap V) : Bool :=
  match s.components with
  | some l => !l.isEmpty
  | none => false

/-- The write-back guard of the restore loop:
`!isPartial || !snapshot.components || snapshot.components.includes(id)`. -/
def restoreGuard (filtered : Bool) (filter : Option (List Nat)) (c : Nat) : Bool :=
  !filtered || (match filter with
                | none => true
                | some l => l.contains c)

/-- The per-entity restore step of `revert`: for a full snapshot first delete
current own-components absent from the captured table, then write every
captured component whose id passes `restoreGuard` (values deep-cloned on the
way in). -/
def restoreTable {V : Type} (filtered : Bool) (filter : Option (List Nat))
    (scomps cur : List (Nat × V)) : List (Nat × V) :=
  let cur1 := if filtered then cur else cur.filter (fun p => ahas scomps p.1)
  scomps.foldl (fun acc p =>
    if restoreGuard filtered filter p.1 then aset acc p.1 p.2 else acc) cur1

/-- Re-creation of a captured entity that is no longer live. -/
def resurrect {V : Type} (e : Nat) (w : World V) : World V :=
  { w with entities := sadd w.entities e, components := aset w.components e [] }

/-- The restore loop of `revert` over the captured entity states.  A live
entity whose component-table entry is missing makes the source `return`,
aborting the rest of the loop. -/
def revertGo {V : Type} (filtered : Bool) (filter : Option (List Nat)) :
    List (Nat × List (Nat × V)) → World V → World V
  | [], w => w
  | (e, scomps) :: rest, w =>
      if e ∈ w.entities then
        match aget w.components e with
        | none => w
        | some cur =>
            let nc := aset w.components e (restoreTable filtered filter scomps cur)
            revertGo filtered filter rest { w with components := nc }
      else if scomps.isEmpty then revertGo filtered filter rest w
      else
        let w1 := resurrect e w
        match aget w1.components e with
        | none => w1
        | some cur =>
            let nc := aset w1.components e (restoreTable filtered filter scomps cur)
            revertGo filtered filter rest { w1 with components := nc }

/-- `revert`: for a full snapshot despawn every live entity absent from the
capture (iterating a copy of the entity set), then run the restore loop. -/
def revertW {V : Type} (s : Snap V) (w : World V) : World V :=
  let filtered := snapIsFiltered s
  let w1 :=
    if filtered then w
    else w.entities.foldl (fun acc e =>
      if ahas s.entityStates e then acc else (despawnW e acc).1) w
  revertGo filtered s.components s.entityStates w1

/-! ## The operation step relation

A run of the system: the world plus the snapshots the caller has taken (a
`revert` can only replay a snapshot previously captured from this world). -/

structure Sys (V : Type) where
  w : World V
  snaps : List (Snap V)

inductive Op (V : Type) where
  | spawn
  | despawn (e : Nat)
  | set (e c : Nat) (v : V)
  | remove (e c : Nat)
  | snap (filter : Option (List Nat))
  | revert (k : Nat)
  | createGroup
  | removeGroup (g : Nat)
  | groupAdd (g e : Nat)
  | groupRemove (g e : Nat)
  | groupSet (g c : Nat) (v : V)
  | groupRemoveComp (g c : Nat)
  deriving DecidableEq

/-- One step of the public API. -/
def exec {V : Type} (s : Sys V) : Op V → Sys V
  | .spawn => { s with w := (spawnW s.w).1 }
  | .despawn e => { s with w := (despawnW e s.w).1 }
  | .set e c v => { s with w := setComp e c v s.w }
  | .remove e c => { s with w := (removeComp e c s.w).1 }
  | .snap filter => { s with snaps := s.snaps ++ [snapshotW s.w filter] }
  | .revert k =>
      match s.snaps.get? k with
      | some sn => { s with w := revertW sn s.w }
      | none => s
  | .createGroup => { s with w := (createGroupW s.w).1 }
  | .removeGroup g => { s with w := removeGroupW g s.w }
  | .groupAdd g e => { s with w := groupAddEntity g e s.w }
  | .groupRemove g e => { s with w := groupRemoveEntity g e s.w }
  | .groupSet g c v => { s with w := groupSetComp g c v s.w }
  | .groupRemoveComp g c => { s with w := groupRemoveComp g c s.w }

def execList {V : Type} (s : Sys V) (ops : List (Op V)) : Sys V :=
  ops.foldl exec s

/-- The initial system: a fresh world, no snapshots taken. -/
def initSys (V : Type) : Sys V := ⟨initWorld V, []⟩

/-! ## The `Event` channel (`src/ecs/event.ts`)

`connect` stores the callback in the `connections` map under a fresh
numeric id and hands back a disposable that deletes exactly that id;
`fire` runs `this.connections.forEach((cb) => cb(...args))` — it iterates
the *live* map, taking no copy.  We embed the class for the family of
handlers whose side effect is disposing subscriptions (the behaviour the
claim is about): a handler is described by the list of connection ids it
disconnects when invoked.  `fire` walks the entries present when it
started, in connection order, invoking each handler that is still
connected when reached (an entry deleted mid-iteration before being
reached is skipped, matching map-iteration semantics), and applying its
disconnections to the live map. -/

structure EvState where
  connections : List (Nat × List Nat)
  nextId : Nat

/-- `connect`: register a handler (given by the ids it will disconnect)
under a fresh id. -/
def evConnect (spec : List Nat) (st : EvState) : EvState × Nat :=
  ({ connections := st.connections ++ [(st.nextId, spec)],
     nextId := st.nextId + 1 }, st.nextId)

/-- The iteration inside `fire`: `pending` are the entries captured by the
iterator, `current` the live map.  Returns the ids invoked (in order) and
the final map. -/
def fireGo (pending : List (Nat × List Nat)) (current : List (Nat × List Nat))
    (acc : List Nat) : List Nat × List (Nat × List Nat) :=
  match pending with
  | [] => (acc.reverse, current)
  | (i, spec) :: rest =>
      if ahas current i then
        fireGo rest (current.filter (fun p => p.1 ∉ spec)) (i :: acc)
      else fireGo rest current acc

/-- `fire`: deliver to the handlers, returning the invocation order and the
connections left afterwards. -/
def evFire (st : EvState) : List Nat × EvState :=
  let r := fireGo st.connections st.connections []
  (r.1, { st with connections := r.2 })

/-! ## Concrete runs used as evidence -/

/-- Shorthand for runs of the public API from a fresh world over `Nat`
component values. -/
def run (ops : List (Op Nat)) : Sys Nat := execList (initSys Nat) ops

/-- The component value in the entity's own table, with no validity check
and no group fallback. -/
def ownGet {V : Type} (w : World V) (e c : Nat) : Option V :=
  (aget w.components e).bind (fun t => aget t c)

/-- The id a single operation hands out through `spawn`, if any. -/
def spawnOut {V : Type} (s : Sys V) : Op V → List Nat
  | Op.spawn => [s.w.nextEntityId]
  | _ => []

/-- The entity ids handed out by the `spawn` calls of a run, in order. -/
def runSpawns {V : Type} : Sys V → List (Op V) → List Nat
  | _, [] => []
  | s, o :: rest => spawnOut s o ++ runSpawns (exec s o) rest

/-! ## Well-formed worlds

`WF` collects the structural invariants every reachable world satisfies:
the entity set and the component store have exactly the same domain, the
entity set is duplicate-free, and each component table has duplicate-free
keys. -/

def WF {V : Type} (w : World V) : Prop :=
  (∀ e ∈ w.entities, (aget w.components e).isSome) ∧
  (∀ p ∈ w.components, p.1 ∈ w.entities) ∧
  w.entities.Nodup ∧
  (∀ p ∈ w.components, (akeys p.2).Nodup)

@[simp] theorem aget_nil {K V : Type} [DecidableEq K] (k : K) : aget ([] : List (K × V)) k = none := rfl

@[simp] theorem aget_cons {K V : Type} [DecidableEq K] (k1 k : K) (v : V) (r : List (K × V)) :
    aget ((k1, v) :: r) k = if k1 = k then some v else aget r k := rfl

@[simp] theorem ahas_nil {K V : Type} [DecidableEq K] (k : K) : ahas ([] : List (K × V)) k = false := rfl

@[simp] theorem ahas_cons {K V : Type} [DecidableEq K] (k1 k : K) (v : V) (r : List (K × V)) :
    ahas ((k1, v) :: r) k = (decide (k1 = k) || ahas r k) := rfl

theorem ahas_iff_aget {K V : Type} [DecidableEq K] (m : List (K × V)) (k : K) :
    ahas m k = true ↔ (aget m k).isSome := by
  induction m with
  | nil => simp
  | cons p r ih =>
    obtain ⟨k1, v⟩ := p
    by_cases h : k1 = k <;> simp [h, ih]

theorem aget_aset_self {K V : Type} [DecidableEq K] (m : List (K × V)) (k : K) (v : V) :
    aget (aset m k v) k = some v := by
  induction m with
  | nil => simp [aset]
  | cons p r ih =>
    obtain ⟨k1, v1⟩ := p
    by_cases h : k1 = k <;> simp [aset, h, ih]

theorem aget_aset_ne {K V : Type} [DecidableEq K] (m : List (K × V)) (k k2 : K) (v : V) (h : k ≠ k2) :
    aget (aset m k v) k2 = aget m k2 := by
  induction m with
  | nil => simp [aset, h]
  | cons p r ih =>
    obtain ⟨k1, v1⟩ := p
    by_cases h1 : k1 = k
    · subst h1; simp [aset, h]
    · by_cases h2 : k1 = k2
      · subst h2; simp [aset, h1]
      · simp [aset, h1, h2, ih]

theorem aget_adel {K V : Type} [DecidableEq K] (m : List (K × V)) (k k2 : K) :
    aget (adel m k) k2 = if k = k2 then none else aget m k2 := by
  induction m with
  | nil => simp [adel]
  | cons p r ih =>
    obtain ⟨k1, v1⟩ := p
    by_cases h1 : k1 = k
    · subst h1
      by_cases h2 : k1 = k2
      · subst h2; simpa [adel] using ih
      · simpa [adel, h2] using ih
    · by_cases h2 : k1 = k2
      · subst h2; simp [adel, h1, Ne.symm h1]
      · simpa [adel, h1, h2] using ih

/-- Writing back the value already stored at `k` leaves the map untouched. -/
theorem aset_aget_self {K V : Type} [DecidableEq K] (m : List (K × V)) (k : K) (v : V)
    (h : aget m k = some v) : aset m k v = m := by
  induction m with
  | nil => simp at h
  | cons p r ih =>
    obtain ⟨k1, v1⟩ := p
    by_cases h1 : k1 = k
    · subst h1
      simp at h
      simp [aset, h]
    · simp [h1] at h
      simp [aset, h1, ih h]

theorem akeys_aset {K V : Type} [DecidableEq K] (m : List (K × V)) (k : K) (v : V) :
    akeys (aset m k v) = if ahas m k then akeys m else akeys m ++ [k] := by
  induction m with
  | nil => simp [aset, akeys]
  | cons p r ih =>
    obtain ⟨k1, v1⟩ := p
    by_cases h1 : k1 = k
    · subst h1; simp [aset, akeys]
    · by_cases h2 : ahas r k <;> simp [aset, akeys, h1, h2] <;> simpa [akeys, h2] using ih

theorem ahas_iff_mem_akeys {K V : Type} [DecidableEq K] (m : List (K × V)) (k : K) :
    ahas m k = true ↔ k ∈ akeys m := by
  induction m with
  | nil => simp [akeys]
  | cons p r ih =>
    obtain ⟨k1, v1⟩ := p
    by_cases h : k1 = k
    · simp [akeys, h]
    · have hne : k ≠ k1 := fun hc => h hc.symm
      simp only [ahas_cons, akeys, List.map_cons, List.mem_cons, hne, false_or,
        decide_eq_true_eq, h, Bool.false_or]
      simpa [akeys] using ih

theorem nodup_akeys_aset {K V : Type} [DecidableEq K] (m : List (K × V)) (k : K) (v : V)
    (h : (akeys m).Nodup) : (akeys (aset m k v)).Nodup := by
  rw [akeys_aset]
  by_cases hk : ahas m k
  · simpa [hk]
  · simp only [hk, if_false]
    refine List.Nodup.append h (List.nodup_singleton k) ?_
    intro x hx hx2
    simp at hx2
    subst hx2
    exact hk ((ahas_iff_mem_akeys m x).2 hx)

theorem akeys_adel {K V : Type} [DecidableEq K] (m : List (K × V)) (k : K) :
    akeys (adel m k) = (akeys m).filter (fun x => x ≠ k) := by
  induction m with
  | nil => rfl
  | cons p r ih =>
    obtain ⟨k1, v1⟩ := p
    by_cases h1 : k1 = k <;> simp [adel, akeys, h1] at ih ⊢ <;> simpa [adel, akeys] using ih

theorem nodup_akeys_adel {K V : Type} [DecidableEq K] (m : List (K × V)) (k : K)
    (h : (akeys m).Nodup) : (akeys (adel m k)).Nodup := by
  rw [akeys_adel]
  exact h.filter _

/-- C1 (code_bug evidence): `spawn` entity 1, attach component 1, `despawn`
it.  `despawn` returns `true`, the entity is no longer valid — yet it is
still a member of the `"1"` archetype bucket, because `despawn` (and
likewise `revert`) never updates the archetype index.  The claim (and the
spec: despawn "deletes its component table and archetype-index membership")
requires the entity to be in no bucket. -/
theorem c1_despawn_leaves_archetype_bucket :
    (despawnW 1 (run [.spawn, .set 1 1 5]).w).2 = true ∧
    validW (run [.spawn, .set 1 1 5, .despawn 1]).w 1 = false ∧
    (run [.spawn, .set 1 1 5, .despawn 1]).w.archetypeToEntities = [("1", [1])] := by
  refine ⟨rfl, rfl, rfl⟩

/-- C2 (code_bug evidence): capture a full snapshot while entity 1 owns only
component 2, then give it component 1 and revert.  After the revert the
entity's own table again holds only component 2, but its stale `"1|2"`
archetype bucket makes `query(1)` invoke its callback on entity 1 — a live
entity whose own table does not contain the required component — passing
`none` as the component value.  The claim requires the callback to run only
for entities owning every required component. -/
theorem c2_query_wrong_after_revert :
    validW (run [.spawn, .set 1 2 5, .snap none, .set 1 1 7, .revert 0]).w 1 = true ∧
    ahas ((aget (run [.spawn, .set 1 2 5, .snap none, .set 1 1 7, .revert 0]).w.components 1).getD []) 1 = false ∧
    queryCollect (run [.spawn, .set 1 2 5, .snap none, .set 1 1 7, .revert 0]).w [1] [] = [(1, [none])] := by
  refine ⟨rfl, rfl, rfl⟩

/-- C4 (code_bug evidence): a freshly constructed world has zero live
entities, yet `snapshot()` still produces a snapshot value (with an empty
captured entity-state map): `createSnapshot` has no absent path, although
the claim — and the function's own documented return contract — require
`undefined` when no entities exist. -/
theorem c4_snapshot_of_empty_world_is_a_value :
    (initWorld Nat).entities = [] ∧
    (snapshotW (initWorld Nat) none).entityStates = [] := by
  exact ⟨rfl, rfl⟩

/-- C3 (counterexample): entity 1 is live (with an empty component table)
when the full snapshot is captured, so `valid 1` is `true` at capture time;
after despawning it, `revert` does not resurrect an entity captured with
zero components, so `valid 1` is `false` after the round trip. -/
theorem c3_roundtrip_counterexample :
    validW (run [.spawn, .snap none]).w 1 = true ∧
    validW (run [.spawn, .snap none, .despawn 1, .revert 0]).w 1 = false := by
  exact ⟨rfl, rfl⟩

/-- C5 (counterexample): two handlers are connected when `fire` starts;
handler 0 disconnects handler 1 during delivery.  `fire` iterates the live
map rather than a copy, so handler 1 — captured at the start of the fire —
is never invoked, contradicting the claim. -/
theorem c5_fire_counterexample :
    ahas ([(0, [1]), (1, [])] : List (Nat × List Nat)) 1 = true ∧
    (evFire ⟨[(0, [1]), (1, [])], 2⟩).1 = [0] := by
  exact ⟨rfl, rfl⟩

/-! ## Small facts about the set and archetype helpers -/

theorem mem_sadd_iff (s : List Nat) (x y : Nat) : x ∈ sadd s y ↔ x ∈ s ∨ x = y := by
  by_cases h : y ∈ s
  · simp [sadd, h]
    intro hx
    subst hx
    exact h
  · simp [sadd, h]

theorem mem_sadd_self (s : List Nat) (y : Nat) : y ∈ sadd s y :=
  (mem_sadd_iff s y y).2 (Or.inr rfl)

theorem mem_sdel_iff (s : List Nat) (x y : Nat) : x ∈ sdel s y ↔ x ∈ s ∧ x ≠ y := by
  simp [sdel]

theorem nodup_sadd (s : List Nat) (y : Nat) (h : s.Nodup) : (sadd s y).Nodup := by
  by_cases hy : y ∈ s
  · simpa [sadd, hy]
  · simp [sadd, hy]
    exact List.Nodup.append h (List.nodup_singleton y)
      (by intro x hx hx2; simp at hx2; subst hx2; exact hy hx)

theorem nodup_sdel (s : List Nat) (y : Nat) (h : s.Nodup) : (sdel s y).Nodup :=
  h.filter _

/-- `updateEntityArchetype` only rewrites the two archetype-index fields. -/
theorem updateEntityArchetype_shape {V : Type} (e : Nat) (w : World V) :
    ∃ A B, updateEntityArchetype e w =
      { w with archetypeToEntities := A, entityToArchetype := B } := by
  unfold updateEntityArchetype
  cases h1 : aget w.components e with
  | none =>
      cases h2 : aget w.entityToArchetype e with
      | none => exact ⟨w.archetypeToEntities, w.entityToArchetype, rfl⟩
      | some a => exact ⟨_, _, rfl⟩
  | some comps =>
      by_cases h3 : comps.isEmpty
      · simp only [h3, if_true]
        cases h2 : aget w.entityToArchetype e with
        | none => exact ⟨w.archetypeToEntities, w.entityToArchetype, rfl⟩
        | some a => exact ⟨_, _, rfl⟩
      · simp only [h3, if_false]
        by_cases h4 : aget w.entityToArchetype e =
            some (generateArchetypeSignature (akeys comps))
        · simp only [h4, if_true]
          exact ⟨w.archetypeToEntities, w.entityToArchetype, rfl⟩
        · simp only [h4, if_false]
          exact ⟨_, _, rfl⟩

theorem updateEntityArchetype_components {V : Type} (e : Nat) (w : World V) :
    (updateEntityArchetype e w).components = w.components := by
  obtain ⟨A, B, h⟩ := updateEntityArchetype_shape e w
  rw [h]

theorem updateEntityArchetype_entities {V : Type} (e : Nat) (w : World V) :
    (updateEntityArchetype e w).entities = w.entities := by
  obtain ⟨A, B, h⟩ := updateEntityArchetype_shape e w
  rw [h]

theorem updateEntityArchetype_groupFrame {V : Type} (e : Nat) (w : World V) :
    (updateEntityArchetype e w).groupEntities = w.groupEntities ∧
    (updateEntityArchetype e w).groupComponents = w.groupComponents ∧
    (updateEntityArchetype e w).entityToGroups = w.entityToGroups ∧
    (updateEntityArchetype e w).nextEntityId = w.nextEntityId ∧
    (updateEntityArchetype e w).nextGroupId = w.nextGroupId ∧
    (updateEntityArchetype e w).groups = w.groups := by
  obtain ⟨A, B, h⟩ := updateEntityArchetype_shape e w
  rw [h]
  exact ⟨rfl, rfl, rfl, rfl, rfl, rfl⟩

/-- C7: `remove(e, c)` succeeds exactly when `c` sits in `e`'s own table
(in particular it fails for a non-live `e`); on success it deletes exactly
that one key of `e`'s own table and leaves every group table, every group
membership, and every other entity untouched; on failure the whole world
state is unchanged. -/
theorem c7_remove_own_table_only {V : Type} (w : World V) (e c : Nat) :
    ((removeComp e c w).2 = true ↔
      e ∈ w.entities ∧ ahas ((aget w.components e).getD []) c = true) ∧
    ((removeComp e c w).2 = false → (removeComp e c w).1 = w) ∧
    ((removeComp e c w).2 = true →
      ownGet (removeComp e c w).1 e c = none ∧
      (∀ c2, c2 ≠ c → ownGet (removeComp e c w).1 e c2 = ownGet w e c2) ∧
      (∀ e2, e2 ≠ e → aget (removeComp e c w).1.components e2 = aget w.components e2) ∧
      (removeComp e c w).1.entities = w.entities ∧
      (removeComp e c w).1.groupComponents = w.groupComponents ∧
      (removeComp e c w).1.groupEntities = w.groupEntities ∧
      (removeComp e c w).1.entityToGroups = w.entityToGroups) := by
  by_cases he : e ∈ w.entities
  · cases hg : aget w.components e with
    | none =>
        simp [removeComp, he, hg]
    | some comps =>
        by_cases hc : ahas comps c
        · have harr : removeComp e c w =
              (updateEntityArchetype e
                { w with components := aset w.components e (adel comps c) }, true) := by
            simp [removeComp, he, hg, hc]
          set wm : World V := { w with components := aset w.components e (adel comps c) } with hwm
          have hcomp : (updateEntityArchetype e wm).components = wm.components :=
            updateEntityArchetype_components e wm
          have hent : (updateEntityArchetype e wm).entities = wm.entities :=
            updateEntityArchetype_entities e wm
          have hgf := updateEntityArchetype_groupFrame e wm
          refine ⟨?_, ?_, ?_⟩
          · rw [harr]; simp [he, hg, hc]
          · rw [harr]; simp
          · intro _
            rw [harr]
            refine ⟨?_, ?_, ?_, ?_, ?_, ?_, ?_⟩
            · simp only [ownGet, hcomp, hwm, aget_aset_self, Option.bind]
              simp [aget_adel]
            · intro c2 hc2
              simp only [ownGet, hcomp, hwm, aget_aset_self, Option.bind]
              simp [aget_adel, Ne.symm hc2, hg]
            · intro e2 he2
              simp only [hcomp, hwm]
              exact aget_aset_ne _ _ _ _ (Ne.symm he2)
            · rw [hent]
            · exact hgf.2.1
            · exact hgf.1
            · exact hgf.2.2.1
        · simp [removeComp, he, hg, hc]
  · simp [removeComp, he]

/-- C10: group membership performs no liveness check: for any entity id —
live, dead, or never spawned — `addEntity` succeeds; afterwards the group's
member set contains the id (`hasEntity` is true and `getEntities` lists it),
the world's reverse index `getGroupsForEntity` includes the group, and a
non-live id still reads as absent through `get`/`has` because validity is
checked before the group overlay.  (The hypothesis `hsync` covers the
idempotent re-add: when the id is already a member, the reverse index
already lists the group — which holds in every reachable state.) -/
theorem c10_group_add_no_liveness {V : Type} (w : World V) (g e : Nat)
    (members : List Nat) (hg : aget w.groupEntities g = some members)
    (hsync : e ∈ members → g ∈ getGroupsForEntity w e) :
    e ∈ (aget (groupAddEntity g e w).groupEntities g).getD [] ∧
    g ∈ getGroupsForEntity (groupAddEntity g e w) e ∧
    (groupAddEntity g e w).entities = w.entities ∧
    (e ∉ w.entities →
      ∀ c, getComp (groupAddEntity g e w) e c = none ∧
           hasComp (groupAddEntity g e w) e c = false) := by
  by_cases hm : e ∈ members
  · have hw : groupAddEntity g e w = w := by simp [groupAddEntity, hg, hm]
    rw [hw]
    refine ⟨by simp [hg, hm], hsync hm, rfl, ?_⟩
    intro he c
    simp [getComp, hasComp, he]
  · have hw : groupAddEntity g e w =
        { w with
          groupEntities := aset w.groupEntities g (members ++ [e]),
          entityToGroups :=
            aset w.entityToGroups e (sadd ((aget w.entityToGroups e).getD []) g) } := by
      simp [groupAddEntity, hg, hm]
    rw [hw]
    refine ⟨by simp [aget_aset_self], ?_, rfl, ?_⟩
    · simp only [getGroupsForEntity, aget_aset_self, Option.getD]
      exact mem_sadd_self _ g
    · intro he c
      simp [getComp, hasComp, he]

/-! ## Delivery properties of `Event.fire` -/

theorem akeys_filter_keyPred {V : Type} (l : List (Nat × V)) (p : Nat → Bool) :
    akeys (l.filter (fun q => p q.1)) = (akeys l).filter p := by
  induction l with
  | nil => rfl
  | cons q r ih =>
      by_cases hq : p q.1 <;> simp [akeys, hq] at ih ⊢ <;> simpa [akeys] using ih

theorem fireGo_invokes_all (pending current : List (Nat × List Nat)) (acc : List Nat)
    (h1 : ∀ q ∈ pending, q.1 ∈ akeys current)
    (h2 : List.Pairwise (fun p q => q.1 ∉ p.2) pending) :
    (fireGo pending current acc).1 = acc.reverse ++ akeys pending := by
  induction pending generalizing current acc with
  | nil => simp [fireGo, akeys]
  | cons q rest ih =>
      obtain ⟨i, spec⟩ := q
      have hi : i ∈ akeys current := h1 (i, spec) (by simp)
      have hhas : ahas current i = true := (ahas_iff_mem_akeys current i).2 hi
      rw [fireGo, hhas]
      simp only [if_true]
      rw [ih (current.filter (fun p => p.1 ∉ spec)) (i :: acc) ?_ (h2.sublist (List.sublist_cons_self _ _))]
      · simp [akeys]
      · intro q hq
        have hmem : q.1 ∈ akeys current := h1 q (by simp [hq])
        have hnotin : q.1 ∉ spec := by
          have := (List.pairwise_cons.1 h2).1 q hq
          exact this
        have : akeys (current.filter (fun p => decide (p.1 ∉ spec))) =
            (akeys current).filter (fun x => decide (x ∉ spec)) :=
          akeys_filter_keyPred current (fun x => decide (x ∉ spec))
        rw [this]
        simp only [List.mem_filter]
        exact ⟨hmem, by simpa using hnotin⟩

theorem fireGo_sublist (pending current : List (Nat × List Nat)) (acc : List Nat) :
    ∃ l, (fireGo pending current acc).1 = acc.reverse ++ l ∧
      l.Sublist (akeys pending) := by
  induction pending generalizing current acc with
  | nil => exact ⟨[], by simp [fireGo], List.Sublist.refl _⟩
  | cons q rest ih =>
      obtain ⟨i, spec⟩ := q
      by_cases hhas : ahas current i = true
      · obtain ⟨l, hl, hs⟩ := ih (current.filter (fun p => p.1 ∉ spec)) (i :: acc)
        refine ⟨i :: l, ?_, ?_⟩
        · rw [fireGo, hhas]
          simp only [if_true]
          rw [hl]
          simp
        · simpa [akeys] using hs.cons₂ i
      · obtain ⟨l, hl, hs⟩ := ih current acc
        refine ⟨l, ?_, ?_⟩
        · rw [fireGo, Bool.eq_false_iff.2 hhas]
          simp only [Bool.false_eq_true, if_false]
          exact hl
        · simpa [akeys] using hs.cons i

/-- C5 (amended): `fire` delivers synchronously in connection order to
exactly those handlers not yet disconnected when reached: if no handler
disconnects a handler connected after it (it may freely disconnect itself
or already-invoked handlers), every handler connected at fire time is
invoked exactly once, in connection order; and with distinct connection ids
no handler is ever invoked twice in one fire. -/
theorem c5_fire_amended (conns : List (Nat × List Nat)) (nid : Nat) :
    (List.Pairwise (fun p q => q.1 ∉ p.2) conns →
      (evFire ⟨conns, nid⟩).1 = akeys conns) ∧
    ((akeys conns).Nodup → (evFire ⟨conns, nid⟩).1.Nodup) := by
  constructor
  · intro h2
    have := fireGo_invokes_all conns conns [] (fun q hq => by
      simp [akeys]
      exact ⟨q.2, by simpa using hq⟩) h2
    simpa [evFire] using this
  · intro hnd
    obtain ⟨l, hl, hs⟩ := fireGo_sublist conns conns []
    have : (evFire ⟨conns, nid⟩).1 = l := by simpa [evFire] using hl
    rw [this]
    exact hnd.sublist hs

/-! ## Which fields each operation can touch -/

theorem despawnGroups_shape {V : Type} (e : Nat) (w : World V) :
    ∃ GE EG, despawnGroups e w =
      { w with groupEntities := GE, entityToGroups := EG } := by
  unfold despawnGroups
  cases aget w.entityToGroups e with
  | none => exact ⟨w.groupEntities, w.entityToGroups, rfl⟩
  | some gs => exact ⟨_, _, rfl⟩

theorem despawnW_shape {V : Type} (e : Nat) (w : World V) :
    ∃ E C GE EG, (despawnW e w).1 =
      { w with entities := E, components := C,
               groupEntities := GE, entityToGroups := EG } := by
  unfold despawnW
  by_cases he : e ∈ w.entities
  · simp only [he, if_true]
    obtain ⟨GE, EG, hdg⟩ := despawnGroups_shape e w
    cases hc : aget (despawnGroups e w).components e with
    | none => exact ⟨w.entities, w.components, GE, EG, by rw [hdg]⟩
    | some cur =>
        refine ⟨sdel (despawnGroups e w).entities e,
                adel (despawnGroups e w).components e, GE, EG, ?_⟩
        rw [hdg]
  · exact ⟨w.entities, w.components, w.groupEntities, w.entityToGroups, by simp [he]⟩

theorem setComp_shape {V : Type} (e c : Nat) (v : V) (w : World V) :
    ∃ C A B, setComp e c v w =
      { w with components := C, archetypeToEntities := A, entityToArchetype := B } := by
  by_cases he : e ∈ w.entities
  · cases h : aget w.components e with
    | none =>
        refine ⟨w.components, w.archetypeToEntities, w.entityToArchetype, ?_⟩
        simp [setComp, he, h]
    | some comps =>
        obtain ⟨A, B, hu⟩ := updateEntityArchetype_shape e { w with components := aset w.components e (aset comps c v) }
        refine ⟨aset w.components e (aset comps c v), A, B, ?_⟩
        simp only [setComp, he, if_true, h, hu]
  · refine ⟨w.components, w.archetypeToEntities, w.entityToArchetype, ?_⟩
    simp [setComp, he]

theorem removeComp_shape {V : Type} (e c : Nat) (w : World V) :
    ∃ C A B, (removeComp e c w).1 =
      { w with components := C, archetypeToEntities := A, entityToArchetype := B } := by
  by_cases he : e ∈ w.entities
  · cases h : aget w.components e with
    | none =>
        refine ⟨w.components, w.archetypeToEntities, w.entityToArchetype, ?_⟩
        simp [removeComp, he, h]
    | some comps =>
        by_cases hc : ahas comps c
        · obtain ⟨A, B, hu⟩ := updateEntityArchetype_shape e { w with components := aset w.components e (adel comps c) }
          refine ⟨aset w.components e (adel comps c), A, B, ?_⟩
          simp only [removeComp, he, if_true, h, hc, hu]
        · refine ⟨w.components, w.archetypeToEntities, w.entityToArchetype, ?_⟩
          simp [removeComp, he, h, hc]
  · refine ⟨w.components, w.archetypeToEntities, w.entityToArchetype, ?_⟩
    simp [removeComp, he]

theorem groupAddEntity_shape {V : Type} (g e : Nat) (w : World V) :
    ∃ GE EG, groupAddEntity g e w =
      { w with groupEntities := GE, entityToGroups := EG } := by
  unfold groupAddEntity
  cases aget w.groupEntities g with
  | none => exact ⟨w.groupEntities, w.entityToGroups, rfl⟩
  | some members =>
      by_cases hm : e ∈ members
      · exact ⟨w.groupEntities, w.entityToGroups, by simp [hm]⟩
      · refine ⟨aset w.groupEntities g (members ++ [e]),
          aset w.entityToGroups e (sadd ((aget w.entityToGroups e).getD []) g), ?_⟩
        simp [hm]

theorem groupRemoveEntity_shape {V : Type} (g e : Nat) (w : World V) :
    ∃ GE EG, groupRemoveEntity g e w =
      { w with groupEntities := GE, entityToGroups := EG } := by
  cases hg : aget w.groupEntities g with
  | none =>
      refine ⟨w.groupEntities, w.entityToGroups, ?_⟩
      simp [groupRemoveEntity, hg]
  | some members =>
      by_cases hm : e ∈ members
      · cases hge : aget w.entityToGroups e with
        | none =>
            refine ⟨aset w.groupEntities g (sdel members e), w.entityToGroups, ?_⟩
            simp [groupRemoveEntity, hg, hm, hge]
        | some gs =>
            by_cases hgs : sdel gs g = []
            · refine ⟨aset w.groupEntities g (sdel members e), adel w.entityToGroups e, ?_⟩
              simp [groupRemoveEntity, hg, hm, hge, hgs]
            · refine ⟨aset w.groupEntities g (sdel members e), aset w.entityToGroups e (sdel gs g), ?_⟩
              simp [groupRemoveEntity, hg, hm, hge, hgs]
      · refine ⟨w.groupEntities, w.entityToGroups, ?_⟩
        simp [groupRemoveEntity, hg, hm]

theorem removeGroupFold_shape {V : Type} (g : Nat) (L : List Nat) (w : World V) :
    ∃ GE EG, L.foldl (fun acc e => groupRemoveEntity g e acc) w =
      { w with groupEntities := GE, entityToGroups := EG } := by
  induction L generalizing w with
  | nil => exact ⟨w.groupEntities, w.entityToGroups, rfl⟩
  | cons e rest ih =>
      simp only [List.foldl_cons]
      obtain ⟨GE1, EG1, h1⟩ := groupRemoveEntity_shape g e w
      obtain ⟨GE2, EG2, h2⟩ := ih (groupRemoveEntity g e w)
      exact ⟨GE2, EG2, by rw [h2, h1]⟩

theorem removeGroupW_shape {V : Type} (g : Nat) (w : World V) :
    ∃ GS GE EG, removeGroupW g w =
      { w with groups := GS, groupEntities := GE, entityToGroups := EG } := by
  unfold removeGroupW
  by_cases hg : g ∈ w.groups
  · simp only [hg, if_true]
    obtain ⟨GE, EG, h⟩ := removeGroupFold_shape g ((aget w.groupEntities g).getD []) w
    rw [h]
    exact ⟨_, GE, EG, rfl⟩
  · exact ⟨w.groups, w.groupEntities, w.entityToGroups, by simp [hg]⟩

theorem groupSetComp_shape {V : Type} (g c : Nat) (v : V) (w : World V) :
    ∃ GC, groupSetComp g c v w = { w with groupComponents := GC } := by
  unfold groupSetComp
  cases aget w.groupComponents g with
  | none => exact ⟨w.groupComponents, rfl⟩
  | some tbl => exact ⟨_, rfl⟩

theorem groupRemoveComp_shape {V : Type} (g c : Nat) (w : World V) :
    ∃ GC, groupRemoveComp g c w = { w with groupComponents := GC } := by
  unfold BJecs.groupRemoveComp
  cases aget w.groupComponents g with
  | none => exact ⟨w.groupComponents, rfl⟩
  | some tbl => exact ⟨_, rfl⟩

/-- The restore loop only rewrites the entity set and the component store. -/
theorem revertGo_shape {V : Type} (filtered : Bool) (filter : Option (List Nat))
    (L : List (Nat × List (Nat × V))) (w : World V) :
    ∃ E C, revertGo filtered filter L w = { w with entities := E, components := C } := by
  induction L generalizing w with
  | nil => exact ⟨w.entities, w.components, rfl⟩
  | cons p rest ih =>
      obtain ⟨e, scomps⟩ := p
      by_cases he : e ∈ w.entities
      · cases hc : aget w.components e with
        | none =>
            refine ⟨w.entities, w.components, ?_⟩
            simp [revertGo, he, hc]
        | some cur =>
            obtain ⟨E, C, h⟩ := ih { w with components := aset w.components e (restoreTable filtered filter scomps cur) }
            refine ⟨E, C, ?_⟩
            simp [revertGo, he, hc, h]
      · by_cases hsc : scomps.isEmpty
        · obtain ⟨E, C, h⟩ := ih w
          refine ⟨E, C, ?_⟩
          simp [revertGo, he, hsc, h]
        · obtain ⟨E, C, h⟩ := ih { resurrect e w with components := aset (resurrect e w).components e (restoreTable filtered filter scomps []) }
          refine ⟨E, C, ?_⟩
          simp only [revertGo, he, if_false, hsc, resurrect] at h ⊢
          rw [aget_aset_self]
          simpa using h

theorem dfold_shape {V : Type} (S : List (Nat × List (Nat × V))) (L : List Nat) (w : World V) :
    ∃ E C GE EG, L.foldl (fun acc e => if ahas S e then acc else (despawnW e acc).1) w =
      { w with entities := E, components := C,
               groupEntities := GE, entityToGroups := EG } := by
  induction L generalizing w with
  | nil => exact ⟨w.entities, w.components, w.groupEntities, w.entityToGroups, rfl⟩
  | cons e rest ih =>
      simp only [List.foldl_cons]
      by_cases hs : ahas S e
      · simp only [hs, if_true]
        exact ih w
      · simp only [hs]
        obtain ⟨E1, C1, GE1, EG1, h1⟩ := despawnW_shape e w
        obtain ⟨E2, C2, GE2, EG2, h2⟩ := ih (despawnW e w).1
        refine ⟨E2, C2, GE2, EG2, ?_⟩
        simp only [Bool.false_eq_true, if_false]
        rw [h2, h1]

theorem revertW_shape {V : Type} (s : Snap V) (w : World V) :
    ∃ E C GE EG, revertW s w =
      { w with entities := E, components := C,
               groupEntities := GE, entityToGroups := EG } := by
  by_cases hf : snapIsFiltered s
  · obtain ⟨E, C, h⟩ := revertGo_shape (snapIsFiltered s) s.components s.entityStates w
    refine ⟨E, C, w.groupEntities, w.entityToGroups, ?_⟩
    rw [hf] at h
    simp only [revertW, hf, if_true, h]
  · have hf2 : snapIsFiltered s = false := Bool.eq_false_iff.2 hf
    obtain ⟨E1, C1, GE1, EG1, h1⟩ := dfold_shape s.entityStates w.entities w
    obtain ⟨E2, C2, h2⟩ := revertGo_shape (snapIsFiltered s) s.components s.entityStates
      (w.entities.foldl (fun acc e => if ahas s.entityStates e then acc else (despawnW e acc).1) w)
    rw [hf2] at h2
    refine ⟨E2, C2, GE1, EG1, ?_⟩
    simp only [revertW, hf2, Bool.false_eq_true, if_false]
    rw [h2, h1]

/-! ## Entity ids are never reused -/

theorem exec_nextEntityId_mono {V : Type} (s : Sys V) (o : Op V) :
    s.w.nextEntityId ≤ (exec s o).w.nextEntityId := by
  cases o with
  | spawn => simp [exec, spawnW]
  | despawn e =>
      obtain ⟨E, C, GE, EG, h⟩ := despawnW_shape e s.w
      simp [exec, h]
  | set e c v =>
      obtain ⟨C, A, B, h⟩ := setComp_shape e c v s.w
      simp [exec, h]
  | remove e c =>
      obtain ⟨C, A, B, h⟩ := removeComp_shape e c s.w
      simp [exec, h]
  | snap filter => exact le_refl _
  | revert k =>
      simp only [exec]
      cases s.snaps.get? k with
      | none => exact le_refl _
      | some sn =>
          obtain ⟨E, C, GE, EG, h⟩ := revertW_shape sn s.w
          simp [h]
  | createGroup => exact le_refl _
  | removeGroup g =>
      obtain ⟨GS, GE, EG, h⟩ := removeGroupW_shape g s.w
      simp [exec, h]
  | groupAdd g e =>
      obtain ⟨GE, EG, h⟩ := groupAddEntity_shape g e s.w
      simp [exec, h]
  | groupRemove g e =>
      obtain ⟨GE, EG, h⟩ := groupRemoveEntity_shape g e s.w
      simp [exec, h]
  | groupSet g c v =>
      obtain ⟨GC, h⟩ := groupSetComp_shape g c v s.w
      simp [exec, h]
  | groupRemoveComp g c =>
      obtain ⟨GC, h⟩ := groupRemoveComp_shape g c s.w
      simp [exec, h]

theorem runSpawns_lower_bound {V : Type} (ops : List (Op V)) (s : Sys V) :
    ∀ x ∈ runSpawns s ops, s.w.nextEntityId ≤ x := by
  induction ops generalizing s with
  | nil => intro x hx; simp [runSpawns] at hx
  | cons o rest ih =>
      intro x hx
      rw [runSpawns] at hx
      cases o with
      | spawn =>
          simp only [spawnOut, List.singleton_append, List.mem_cons] at hx
          rcases hx with hx | hx
          · exact le_of_eq hx.symm
          · exact le_trans (exec_nextEntityId_mono s Op.spawn) (ih (exec s Op.spawn) x hx)
      | despawn e => exact le_trans (exec_nextEntityId_mono s _) (ih _ x (by simpa [spawnOut] using hx))
      | set e c v => exact le_trans (exec_nextEntityId_mono s _) (ih _ x (by simpa [spawnOut] using hx))
      | remove e c => exact le_trans (exec_nextEntityId_mono s _) (ih _ x (by simpa [spawnOut] using hx))
      | snap f => exact le_trans (exec_nextEntityId_mono s _) (ih _ x (by simpa [spawnOut] using hx))
      | revert k => exact le_trans (exec_nextEntityId_mono s _) (ih _ x (by simpa [spawnOut] using hx))
      | createGroup => exact le_trans (exec_nextEntityId_mono s _) (ih _ x (by simpa [spawnOut] using hx))
      | removeGroup g => exact le_trans (exec_nextEntityId_mono s _) (ih _ x (by simpa [spawnOut] using hx))
      | groupAdd g e => exact le_trans (exec_nextEntityId_mono s _) (ih _ x (by simpa [spawnOut] using hx))
      | groupRemove g e => exact le_trans (exec_nextEntityId_mono s _) (ih _ x (by simpa [spawnOut] using hx))
      | groupSet g c v => exact le_trans (exec_nextEntityId_mono s _) (ih _ x (by simpa [spawnOut] using hx))
      | groupRemoveComp g c => exact le_trans (exec_nextEntityId_mono s _) (ih _ x (by simpa [spawnOut] using hx))

theorem runSpawns_pairwise {V : Type} (ops : List (Op V)) (s : Sys V) :
    List.Pairwise (· < ·) (runSpawns s ops) := by
  induction ops generalizing s with
  | nil => simp [runSpawns]
  | cons o rest ih =>
      rw [runSpawns]
      cases o with
      | spawn =>
          simp only [spawnOut, List.singleton_append, List.pairwise_cons]
          refine ⟨?_, ih _⟩
          intro x hx
          have hle := runSpawns_lower_bound rest (exec s Op.spawn) x hx
          have hs : (exec s (Op.spawn : Op V)).w.nextEntityId = s.w.nextEntityId + 1 := by
            simp [exec, spawnW]
          omega
      | despawn e => simpa [spawnOut] using ih _
      | set e c v => simpa [spawnOut] using ih _
      | remove e c => simpa [spawnOut] using ih _
      | snap filter => simpa [spawnOut] using ih _
      | revert k => simpa [spawnOut] using ih _
      | createGroup => simpa [spawnOut] using ih _
      | removeGroup g => simpa [spawnOut] using ih _
      | groupAdd g e => simpa [spawnOut] using ih _
      | groupRemove g e => simpa [spawnOut] using ih _
      | groupSet g c v => simpa [spawnOut] using ih _
      | groupRemoveComp g c => simpa [spawnOut] using ih _

theorem despawnW_not_valid {V : Type} (e : Nat) (w : World V)
    (h : (despawnW e w).2 = true) : validW (despawnW e w).1 e = false := by
  unfold despawnW at h ⊢
  by_cases he : e ∈ w.entities
  · simp only [he, if_true] at h ⊢
    cases hc : aget (despawnGroups e w).components e with
    | none => rw [hc] at h; simp at h
    | some cur => simp [validW, mem_sdel_iff]
  · simp [he] at h

/-- C8: entity ids are never reused.  In every run of the public API from a
fresh world the ids returned by `spawn` are strictly increasing — so no id,
once returned and despawned, is ever returned by a later `spawn`, under any
interleaving of operations including `revert` (which restores old ids but
never changes the id counter) — and a `despawn` that returns `true` leaves
its entity invalid. -/
theorem c8_entity_ids_never_reused {V : Type} (ops : List (Op V)) :
    List.Pairwise (· < ·) (runSpawns (initSys V) ops) ∧
    (∀ pre e post, ops = pre ++ Op.despawn e :: post →
      (despawnW e (execList (initSys V) pre).w).2 = true →
      validW (exec (execList (initSys V) pre) (Op.despawn e)).w e = false) := by
  refine ⟨runSpawns_pairwise ops (initSys V), ?_⟩
  intro pre e post hops hd
  simpa [exec] using despawnW_not_valid e (execList (initSys V) pre).w hd

/-- Witness for C8 on a concrete run: spawn, despawn the returned entity,
spawn again; the spawn returns are `[1, 2]` (strictly increasing, so entity
1 is not reused) and entity 1 is invalid right after its despawn. -/
theorem c8_witness :
    List.Pairwise (· < ·) (runSpawns (initSys Nat) [.spawn, .despawn 1, .spawn]) ∧
    validW (exec (execList (initSys Nat) [Op.spawn]) (Op.despawn 1)).w 1 = false := by
  refine ⟨(c8_entity_ids_never_reused [.spawn, .despawn 1, .spawn]).1, ?_⟩
  exact (c8_entity_ids_never_reused ([.spawn, .despawn 1, .spawn] : List (Op Nat))).2
    [Op.spawn] 1 [Op.spawn] rfl rfl

/-- C9 (counterexample): entity 1 is captured in a full snapshot, despawned
(leaving it in no group), then added to group 1 while dead; `revert`
re-creates it without touching the reverse index, so the re-created entity
still belongs to group 1 — the claim demands `getGroupsForEntity` be empty
for an entity re-created by revert. -/
theorem c9_revert_group_counterexample :
    validW (run [.spawn, .set 1 1 5, .snap none, .createGroup, .despawn 1, .groupAdd 1 1]).w 1 = false ∧
    validW (run [.spawn, .set 1 1 5, .snap none, .createGroup, .despawn 1, .groupAdd 1 1, .revert 0]).w 1 = true ∧
    getGroupsForEntity (run [.spawn, .set 1 1 5, .snap none, .createGroup, .despawn 1, .groupAdd 1 1, .revert 0]).w 1 = [1] := by
  refine ⟨rfl, rfl, rfl⟩

theorem aget_eq_some_mem {K V : Type} [DecidableEq K] {m : List (K × V)} {k : K} {v : V}
    (h : aget m k = some v) : (k, v) ∈ m := by
  induction m with
  | nil => simp at h
  | cons p r ih =>
      obtain ⟨k1, v1⟩ := p
      by_cases h1 : k1 = k
      · subst h1
        simp at h
        simp [h]
      · simp [h1] at h
        simp [ih h]

theorem mem_aset {K V : Type} [DecidableEq K] {m : List (K × V)} {k : K} {v : V} :
    ∀ p ∈ aset m k v, p ∈ m ∨ p = (k, v) := by
  induction m with
  | nil => intro p hp; simp [aset] at hp; simp [hp]
  | cons q r ih =>
      intro p hp
      obtain ⟨k1, v1⟩ := q
      by_cases h1 : k1 = k
      · subst h1
        simp [aset] at hp
        rcases hp with hp | hp
        · simp [hp]
        · simp [hp]
      · simp [aset, h1] at hp
        rcases hp with hp | hp
        · simp [hp]
        · rcases ih p hp with hh | hh
          · simp [hh]
          · simp [hh]

/-- In a well-formed world a dead entity has no component-table entry. -/
theorem WF.dead_none {V : Type} {w : World V} (h : WF w) {x : Nat}
    (hx : x ∉ w.entities) : aget w.components x = none := by
  cases hc : aget w.components x with
  | none => rfl
  | some t => exact absurd (h.2.1 (x, t) (aget_eq_some_mem hc)) hx

/-- In a well-formed world a live entity has a table with duplicate-free keys. -/
theorem WF.live_table {V : Type} {w : World V} (h : WF w) {x : Nat}
    (hx : x ∈ w.entities) :
    ∃ t, aget w.components x = some t ∧ (akeys t).Nodup := by
  cases hc : aget w.components x with
  | none => exact absurd (hc ▸ h.1 x hx) (by simp)
  | some t => exact ⟨t, rfl, h.2.2.2 (x, t) (aget_eq_some_mem hc)⟩

theorem WF_initWorld (V : Type) : WF (initWorld V) := by
  refine ⟨?_, ?_, ?_, ?_⟩ <;> simp [initWorld]

/-! ## Generic lemmas about the guarded write-back folds of the source -/

theorem aget_filter_key {K V : Type} [DecidableEq K] (m : List (K × V)) (f : K → Bool) (c : K) :
    aget (m.filter (fun p => f p.1)) c = if f c then aget m c else none := by
  induction m with
  | nil => simp
  | cons p r ih =>
      obtain ⟨k1, v1⟩ := p
      by_cases h1 : k1 = c
      · subst h1
        by_cases hf : f k1 <;> simp [hf, ih]
      · by_cases hf : f k1 <;> simp [hf, h1, ih]

theorem foldl_guard_aset_nodup {V : Type} (G : Nat → Bool) (t : List (Nat × V)) :
    ∀ acc : List (Nat × V), (akeys acc).Nodup →
      (akeys (t.foldl (fun a p => if G p.1 then aset a p.1 p.2 else a) acc)).Nodup := by
  induction t with
  | nil => intro acc h; simpa
  | cons p rest ih =>
      intro acc h
      simp only [List.foldl_cons]
      by_cases hg : G p.1
      · simp only [hg, if_true]
        exact ih _ (nodup_akeys_aset acc p.1 p.2 h)
      · simp only [hg, if_false]
        exact ih _ h

theorem foldl_guard_aset_lookup_skip {V : Type} (G : Nat → Bool) (t : List (Nat × V))
    (c : Nat) :
    ∀ acc : List (Nat × V), (∀ p ∈ t, p.1 = c → G p.1 = false) →
      aget (t.foldl (fun a p => if G p.1 then aset a p.1 p.2 else a) acc) c = aget acc c := by
  induction t with
  | nil => intro acc _; rfl
  | cons p rest ih =>
      intro acc hG
      simp only [List.foldl_cons]
      by_cases hg : G p.1
      · simp only [hg, if_true]
        rw [ih _ (fun q hq => hG q (by simp [hq]))]
        have hne : p.1 ≠ c := fun hc => by
          have := hG p (by simp) hc
          rw [this] at hg
          exact absurd hg (by simp)
        exact aget_aset_ne acc p.1 c p.2 hne
      · simp only [hg, if_false]
        exact ih _ (fun q hq => hG q (by simp [hq]))

theorem foldl_guard_aset_has_mono {V : Type} (G : Nat → Bool) (t : List (Nat × V))
    (c : Nat) :
    ∀ acc : List (Nat × V), ahas acc c = true →
      ahas (t.foldl (fun a p => if G p.1 then aset a p.1 p.2 else a) acc) c = true := by
  induction t with
  | nil => intro acc h; simpa
  | cons p rest ih =>
      intro acc h
      simp only [List.foldl_cons]
      by_cases hg : G p.1
      · simp only [hg, if_true]
        refine ih _ ?_
        rw [ahas_iff_aget] at h ⊢
        by_cases hpc : p.1 = c
        · subst hpc; simp [aget_aset_self]
        · rwa [aget_aset_ne _ _ _ _ hpc]
      · simp only [hg, if_false]
        exact ih _ h

theorem foldl_guard_aset_has_sub {V : Type} (G : Nat → Bool) (t : List (Nat × V))
    (c : Nat) :
    ∀ acc : List (Nat × V),
      ahas (t.foldl (fun a p => if G p.1 then aset a p.1 p.2 else a) acc) c = true →
      ahas acc c = true ∨ c ∈ akeys t := by
  induction t with
  | nil => intro acc h; simpa using Or.inl h
  | cons p rest ih =>
      intro acc h
      simp only [List.foldl_cons] at h
      by_cases hg : G p.1
      · rw [if_pos hg] at h
        rcases ih _ h with hh | hh
        · by_cases hpc : p.1 = c
          · subst hpc; right; simp [akeys]
          · rw [ahas_iff_aget, aget_aset_ne _ _ _ _ hpc, ← ahas_iff_aget] at hh
            exact Or.inl hh
        · right; simp [akeys]; right; simpa [akeys] using hh
      · rw [if_neg (by simpa using hg)] at h
        rcases ih _ h with hh | hh
        · exact Or.inl hh
        · right; simp [akeys]; right; simpa [akeys] using hh

theorem foldl_guard_aset_id {V : Type} (G : Nat → Bool) (t : List (Nat × V)) :
    ∀ acc : List (Nat × V), (∀ p ∈ t, aget acc p.1 = some p.2) →
      t.foldl (fun a p => if G p.1 then aset a p.1 p.2 else a) acc = acc := by
  induction t with
  | nil => intro acc _; rfl
  | cons p rest ih =>
      intro acc hv
      simp only [List.foldl_cons]
      by_cases hg : G p.1
      · simp only [hg, if_true]
        rw [aset_aget_self acc p.1 p.2 (hv p (by simp))]
        exact ih _ (fun q hq => hv q (by simp [hq]))
      · simp only [hg, if_false]
        exact ih _ (fun q hq => hv q (by simp [hq]))

theorem foldl_aset_all_lookup {V : Type} (G : Nat → Bool) (t : List (Nat × V))
    (c : Nat) (hnd : (akeys t).Nodup) (hall : ∀ p ∈ t, G p.1 = true) :
    ∀ acc : List (Nat × V),
      aget (t.foldl (fun a p => if G p.1 then aset a p.1 p.2 else a) acc) c =
        match aget t c with
        | some v => some v
        | none => aget acc c := by
  induction t with
  | nil => intro acc; simp
  | cons p rest ih =>
      intro acc
      obtain ⟨k1, v1⟩ := p
      simp only [List.foldl_cons, hall (k1, v1) (by simp), if_true]
      have hnd2 : (akeys rest).Nodup := by
        simpa [akeys] using hnd.of_cons
      rw [ih hnd2 (fun q hq => hall q (by simp [hq])) (aset acc k1 v1)]
      have hknot : k1 ∉ akeys rest := by
        have hcons : (k1 :: akeys rest).Nodup := by simpa [akeys] using hnd
        exact (List.nodup_cons.1 hcons).1
      by_cases h1 : k1 = c
      · subst h1
        cases hr : aget rest k1 with
        | none => simp [hr, aget_aset_self]
        | some v =>
            exact absurd ((ahas_iff_mem_akeys rest k1).1
              ((ahas_iff_aget rest k1).2 (by simp [hr]))) hknot
      · cases hr : aget rest c with
        | none => simp [aget_aset_ne acc k1 c v1 h1, h1, hr]
        | some v => simp [h1, hr]

/-! ## Properties of the per-entity restore step -/

theorem mem_adel {K V : Type} [DecidableEq K] {m : List (K × V)} {k : K} {p : K × V}
    (h : p ∈ adel m k) : p ∈ m ∧ p.1 ≠ k := by
  unfold adel at h
  have := List.mem_filter.1 h
  exact ⟨this.1, by simpa using this.2⟩

theorem restoreGuard_full (filter : Option (List Nat)) (c : Nat) :
    restoreGuard false filter c = true := by
  simp [restoreGuard]

theorem restoreGuard_part_notin (fl : List Nat) (c : Nat) (hc : c ∉ fl) :
    restoreGuard true (some fl) c = false := by
  simp [restoreGuard, hc]

/-- With a full snapshot the restored table looks up exactly like the
captured table. -/
theorem restoreTable_full_lookup {V : Type} (filter : Option (List Nat))
    (t cur : List (Nat × V)) (hnd : (akeys t).Nodup) (c : Nat) :
    aget (restoreTable false filter t cur) c = aget t c := by
  simp only [restoreTable]
  rw [foldl_aset_all_lookup (restoreGuard false filter) t c hnd
    (fun p _ => restoreGuard_full filter p.1)]
  cases hr : aget t c with
  | some v => rfl
  | none =>
      have hhas : ahas t c = false := by
        rw [← Bool.not_eq_true, ahas_iff_aget, hr]
        simp
      rw [if_neg (by simp : ¬ (false = true)), aget_filter_key cur (fun k => ahas t k) c, hhas]
      simp

/-- With a full snapshot the restored table holds no key outside the
captured table. -/
theorem restoreTable_full_dom {V : Type} (filter : Option (List Nat))
    (t cur : List (Nat × V)) (c : Nat)
    (h : ahas (restoreTable false filter t cur) c = true) : ahas t c = true := by
  simp only [restoreTable] at h
  rcases foldl_guard_aset_has_sub (restoreGuard false filter) t c _ h with hh | hh
  · rw [if_neg (by simp : ¬ (false = true)), ahas_iff_aget,
      aget_filter_key cur (fun k => ahas t k) c] at hh
    by_cases ht : ahas t c
    · exact ht
    · rw [Bool.eq_false_iff.2 ht] at hh
      simp at hh
  · exact (ahas_iff_mem_akeys t c).2 hh

/-- The restore step keeps component-table keys duplicate-free. -/
theorem restoreTable_nodup {V : Type} (filtered : Bool) (filter : Option (List Nat))
    (t cur : List (Nat × V)) (hnd : (akeys cur).Nodup) :
    (akeys (restoreTable filtered filter t cur)).Nodup := by
  simp only [restoreTable]
  apply foldl_guard_aset_nodup
  by_cases hf : filtered
  · simp only [hf, if_true]
    exact hnd
  · rw [if_neg (by simp [hf] : ¬ (filtered = true))]
    rw [akeys_filter_keyPred cur (fun k => ahas t k)]
    exact hnd.filter _

/-- A filtered restore leaves every component outside the filter untouched. -/
theorem restoreTable_part_skip {V : Type} (fl : List Nat) (t cur : List (Nat × V))
    (c : Nat) (hc : c ∉ fl) :
    aget (restoreTable true (some fl) t cur) c = aget cur c := by
  simp only [restoreTable, if_true]
  apply foldl_guard_aset_lookup_skip
  intro p hp hpc
  rw [hpc]
  exact restoreGuard_part_notin fl c hc

/-- A filtered restore never deletes a component. -/
theorem restoreTable_part_has_mono {V : Type} (fl : List Nat) (t cur : List (Nat × V))
    (c : Nat) (h : ahas cur c = true) :
    ahas (restoreTable true (some fl) t cur) c = true := by
  simp only [restoreTable, if_true]
  exact foldl_guard_aset_has_mono _ t c cur h

/-! ## Every operation preserves well-formedness -/

theorem WF_aset_table {V : Type} {w : World V} (h : WF w) {e : Nat} (he : e ∈ w.entities)
    {tbl : List (Nat × V)} (hnd : (akeys tbl).Nodup) :
    WF { w with components := aset w.components e tbl } := by
  refine ⟨?_, ?_, h.2.2.1, ?_⟩
  · intro x hx
    by_cases hxe : x = e
    · subst hxe; simp [aget_aset_self]
    · rw [aget_aset_ne _ _ _ _ (fun hc => hxe hc.symm)]
      exact h.1 x hx
  · intro p hp
    rcases mem_aset p hp with hh | hh
    · exact h.2.1 p hh
    · rw [hh]; exact he
  · intro p hp
    rcases mem_aset p hp with hh | hh
    · exact h.2.2.2 p hh
    · rw [hh]; exact hnd

theorem WF_resurrect {V : Type} {w : World V} (h : WF w) (e : Nat) :
    WF (resurrect e w) := by
  refine ⟨?_, ?_, nodup_sadd _ _ h.2.2.1, ?_⟩
  · intro x hx
    by_cases hxe : x = e
    · subst hxe; simp [resurrect, aget_aset_self]
    · show (aget (aset w.components e []) x).isSome
      rw [aget_aset_ne _ _ _ _ (fun hc => hxe hc.symm)]
      exact h.1 x (((mem_sadd_iff _ _ _).1 hx).resolve_right hxe)
  · intro p hp
    rcases mem_aset p hp with hh | hh
    · exact (mem_sadd_iff _ _ _).2 (Or.inl (h.2.1 p hh))
    · rw [hh]; exact mem_sadd_self _ e
  · intro p hp
    rcases mem_aset p hp with hh | hh
    · exact h.2.2.2 p hh
    · rw [hh]; simp [akeys]

theorem WF_spawnW {V : Type} {w : World V} (h : WF w) : WF (spawnW w).1 := by
  refine ⟨?_, ?_, nodup_sadd _ _ h.2.2.1, ?_⟩
  · intro x hx
    by_cases hxe : x = w.nextEntityId
    · subst hxe; simp [spawnW, aget_aset_self]
    · show (aget (aset w.components w.nextEntityId []) x).isSome
      rw [aget_aset_ne _ _ _ _ (fun hc => hxe hc.symm)]
      exact h.1 x (((mem_sadd_iff _ _ _).1 hx).resolve_right hxe)
  · intro p hp
    rcases mem_aset p hp with hh | hh
    · exact (mem_sadd_iff _ _ _).2 (Or.inl (h.2.1 p hh))
    · rw [hh]; exact mem_sadd_self _ _
  · intro p hp
    rcases mem_aset p hp with hh | hh
    · exact h.2.2.2 p hh
    · rw [hh]; simp [akeys]

theorem WF_despawnGroups {V : Type} {w : World V} (h : WF w) (e : Nat) :
    WF (despawnGroups e w) := by
  obtain ⟨GE, EG, hs⟩ := despawnGroups_shape e w
  rw [hs]
  exact h

theorem WF_despawnW {V : Type} {w : World V} (h : WF w) (e : Nat) :
    WF (despawnW e w).1 := by
  unfold despawnW
  by_cases he : e ∈ w.entities
  · simp only [he, if_true]
    have h1 : WF (despawnGroups e w) := WF_despawnGroups h e
    cases hc : aget (despawnGroups e w).components e with
    | none => exact h1
    | some cur =>
        refine ⟨?_, ?_, h1.2.2.1.filter _, ?_⟩
        · intro x hx
          rw [mem_sdel_iff] at hx
          show (aget (adel (despawnGroups e w).components e) x).isSome
          rw [aget_adel]
          rw [if_neg (Ne.symm hx.2)]
          exact h1.1 x hx.1
        · intro p hp
          have := mem_adel hp
          exact (mem_sdel_iff _ _ _).2 ⟨h1.2.1 p this.1, this.2⟩
        · intro p hp
          exact h1.2.2.2 p (mem_adel hp).1
  · simp only [he, if_false]
    exact h

theorem WF_setComp {V : Type} {w : World V} (h : WF w) (e c : Nat) (v : V) :
    WF (setComp e c v w) := by
  by_cases he : e ∈ w.entities
  · cases hc : aget w.components e with
    | none =>
        simp only [setComp, he, if_true, hc]
        exact h
    | some comps =>
        have hnd : (akeys comps).Nodup := h.2.2.2 (e, comps) (aget_eq_some_mem hc)
        have h2 : WF { w with components := aset w.components e (aset comps c v) } :=
          WF_aset_table h he (nodup_akeys_aset comps c v hnd)
        obtain ⟨A, B, hu⟩ := updateEntityArchetype_shape e
          { w with components := aset w.components e (aset comps c v) }
        simp only [setComp, he, if_true, hc, hu]
        exact h2
  · simp only [setComp, he, if_false]
    exact h

theorem WF_removeComp {V : Type} {w : World V} (h : WF w) (e c : Nat) :
    WF (removeComp e c w).1 := by
  by_cases he : e ∈ w.entities
  · cases hc : aget w.components e with
    | none =>
        simp only [removeComp, he, if_true, hc]
        exact h
    | some comps =>
        by_cases hh : ahas comps c
        · have hnd : (akeys comps).Nodup := h.2.2.2 (e, comps) (aget_eq_some_mem hc)
          have h2 : WF { w with components := aset w.components e (adel comps c) } :=
            WF_aset_table h he (nodup_akeys_adel comps c hnd)
          obtain ⟨A, B, hu⟩ := updateEntityArchetype_shape e
            { w with components := aset w.components e (adel comps c) }
          simp only [removeComp, he, if_true, hc, hh, hu]
          exact h2
        · simp only [removeComp, he, if_true, hc, hh, Bool.false_eq_true, if_false]
          exact h
  · simp only [removeComp, he, if_false]
    exact h

theorem WF_revertGo {V : Type} (filtered : Bool) (filter : Option (List Nat))
    (L : List (Nat × List (Nat × V))) :
    ∀ w : World V, WF w → WF (revertGo filtered filter L w) := by
  induction L with
  | nil => intro w h; exact h
  | cons p rest ih =>
      intro w h
      obtain ⟨e, scomps⟩ := p
      rw [revertGo]
      by_cases he : e ∈ w.entities
      · obtain ⟨cur, hc, hndc⟩ := h.live_table he
        simp only [he, if_true, hc]
        exact ih _ (WF_aset_table h he (restoreTable_nodup _ _ _ _ hndc))
      · simp only [he, if_false]
        by_cases hsc : scomps.isEmpty
        · simp only [hsc, if_true]
          exact ih w h
        · simp only [hsc, if_false]
          have h1 : WF (resurrect e w) := WF_resurrect h e
          have he1 : e ∈ (resurrect e w).entities := mem_sadd_self _ e
          obtain ⟨cur, hc, hndc⟩ := h1.live_table he1
          simp only [hc]
          exact ih _ (WF_aset_table h1 he1 (restoreTable_nodup _ _ _ _ hndc))

theorem WF_dfold {V : Type} (S : List (Nat × List (Nat × V))) (L : List Nat) :
    ∀ w : World V, WF w →
      WF (L.foldl (fun acc e => if ahas S e then acc else (despawnW e acc).1) w) := by
  induction L with
  | nil => intro w h; exact h
  | cons e rest ih =>
      intro w h
      simp only [List.foldl_cons]
      by_cases hs : ahas S e
      · simp only [hs, if_true]; exact ih w h
      · simp only [hs, Bool.false_eq_true, if_false]
        exact ih _ (WF_despawnW h e)

theorem WF_revertW {V : Type} {w : World V} (h : WF w) (s : Snap V) :
    WF (revertW s w) := by
  unfold revertW
  by_cases hf : snapIsFiltered s
  · simp only [hf, if_true]
    exact WF_revertGo _ _ _ w h
  · simp only [hf, Bool.false_eq_true, if_false]
    exact WF_revertGo _ _ _ _ (WF_dfold _ _ w h)

/-- A world transported along a shape equation that rewrites none of the
entity/component fields stays well-formed. -/
theorem WF_exec {V : Type} (s : Sys V) (o : Op V) (h : WF s.w) : WF (exec s o).w := by
  cases o with
  | spawn => exact WF_spawnW h
  | despawn e => exact WF_despawnW h e
  | set e c v => exact WF_setComp h e c v
  | remove e c => exact WF_removeComp h e c
  | snap filter => exact h
  | revert k =>
      simp only [exec]
      cases s.snaps.get? k with
      | none => exact h
      | some sn => exact WF_revertW h sn
  | createGroup => exact h
  | removeGroup g =>
      obtain ⟨GS, GE, EG, hs⟩ := removeGroupW_shape g s.w
      simp only [exec, hs]
      exact h
  | groupAdd g e =>
      obtain ⟨GE, EG, hs⟩ := groupAddEntity_shape g e s.w
      simp only [exec, hs]
      exact h
  | groupRemove g e =>
      obtain ⟨GE, EG, hs⟩ := groupRemoveEntity_shape g e s.w
      simp only [exec, hs]
      exact h
  | groupSet g c v =>
      obtain ⟨GC, hs⟩ := groupSetComp_shape g c v s.w
      simp only [exec, hs]
      exact h
  | groupRemoveComp g c =>
      obtain ⟨GC, hs⟩ := groupRemoveComp_shape g c s.w
      simp only [exec, hs]
      exact h

/-- Every state reachable from a fresh world is well-formed. -/
theorem WF_execList {V : Type} (ops : List (Op V)) :
    ∀ s : Sys V, WF s.w → WF (execList s ops).w := by
  induction ops with
  | nil => intro s h; exact h
  | cons o rest ih =>
      intro s h
      exact ih (exec s o) (WF_exec s o h)

theorem WF_reachable {V : Type} (ops : List (Op V)) :
    WF (execList (initSys V) ops).w :=
  WF_execList ops (initSys V) (WF_initWorld V)

/-! ## What `despawn` does to the state -/

theorem despawnW_dead_id {V : Type} {w : World V} {e : Nat} (he : e ∉ w.entities) :
    (despawnW e w).1 = w := by
  simp [despawnW, he]

theorem despawnW_entities_mem {V : Type} {w : World V} (h : WF w) (e x : Nat) :
    x ∈ (despawnW e w).1.entities ↔ (x ∈ w.entities ∧ x ≠ e) := by
  by_cases he : e ∈ w.entities
  · obtain ⟨t, hc, _⟩ := h.live_table he
    obtain ⟨GE, EG, hdg⟩ := despawnGroups_shape e w
    have hc2 : aget (despawnGroups e w).components e = some t := by rw [hdg]; exact hc
    simp only [despawnW, he, if_true, hc2]
    rw [hdg]
    simp [mem_sdel_iff]
  · rw [despawnW_dead_id he]
    constructor
    · intro hx
      refine ⟨hx, ?_⟩
      intro hxe
      subst hxe
      exact he hx
    · exact fun hx => hx.1

theorem despawnW_components {V : Type} {w : World V} (h : WF w) (e x : Nat) :
    aget (despawnW e w).1.components x = if x = e then none else aget w.components x := by
  by_cases he : e ∈ w.entities
  · obtain ⟨t, hc, _⟩ := h.live_table he
    obtain ⟨GE, EG, hdg⟩ := despawnGroups_shape e w
    have hc2 : aget (despawnGroups e w).components e = some t := by rw [hdg]; exact hc
    simp only [despawnW, he, if_true, hc2]
    rw [hdg]
    simp only [aget_adel]
    by_cases hxe : x = e
    · subst hxe; simp
    · rw [if_neg (fun hc3 => hxe hc3.symm), if_neg hxe]
  · rw [despawnW_dead_id he]
    by_cases hxe : x = e
    · subst hxe; simp [h.dead_none he]
    · simp [hxe]

theorem despawnW_entityToGroups {V : Type} {w : World V} (h : WF w) (e : Nat)
    (he : e ∈ w.entities) (x : Nat) :
    aget (despawnW e w).1.entityToGroups x =
      if x = e then none else aget w.entityToGroups x := by
  obtain ⟨t, hc, _⟩ := h.live_table he
  have hd : (despawnGroups e w).entityToGroups = adel w.entityToGroups e ∨
      ((despawnGroups e w).entityToGroups = w.entityToGroups ∧
        aget w.entityToGroups e = none) := by
    unfold despawnGroups
    cases hg : aget w.entityToGroups e with
    | none => exact Or.inr ⟨rfl, rfl⟩
    | some gs => exact Or.inl rfl
  obtain ⟨GE, EG, hdg⟩ := despawnGroups_shape e w
  have hc2 : aget (despawnGroups e w).components e = some t := by rw [hdg]; exact hc
  simp only [despawnW, he, if_true, hc2]
  rcases hd with hd | ⟨hd, hnone⟩
  · rw [hd, aget_adel]
    by_cases hxe : x = e
    · subst hxe; simp
    · rw [if_neg (fun hc3 => hxe hc3.symm), if_neg hxe]
  · rw [hd]
    by_cases hxe : x = e
    · subst hxe; simp [hnone]
    · simp [hxe]

theorem despawnGroups_members_sub {V : Type} (e : Nat) (w : World V) (g x : Nat)
    (hx : x ∈ (aget (despawnGroups e w).groupEntities g).getD []) :
    x ∈ (aget w.groupEntities g).getD [] := by
  unfold despawnGroups at hx
  cases hg : aget w.entityToGroups e with
  | none => rw [hg] at hx; exact hx
  | some gs =>
      rw [hg] at hx
      simp only at hx
      revert hx
      have : ∀ (L : List Nat) (m : List (Nat × List Nat)),
          x ∈ (aget (L.foldl (fun m g2 =>
            match aget m g2 with
            | some members => aset m g2 (sdel members e)
            | none => m) m) g).getD [] → x ∈ (aget m g).getD [] := by
        intro L
        induction L with
        | nil => intro m hx; exact hx
        | cons g2 rest ih =>
            intro m hx
            simp only [List.foldl_cons] at hx
            have h2 := ih _ hx
            cases hm : aget m g2 with
            | none => rwa [hm] at h2
            | some members =>
                rw [hm] at h2
                by_cases hgg : g2 = g
                · subst hgg
                  rw [aget_aset_self] at h2
                  simp only [Option.getD] at h2
                  rw [hm]
                  exact (mem_sdel_iff _ _ _).1 h2 |>.1
                · rwa [aget_aset_ne _ _ _ _ hgg] at h2
      exact this gs w.groupEntities

theorem despawnW_members_sub {V : Type} (e : Nat) (w : World V) (g x : Nat)
    (hx : x ∈ (aget (despawnW e w).1.groupEntities g).getD []) :
    x ∈ (aget w.groupEntities g).getD [] := by
  by_cases he : e ∈ w.entities
  · have : (despawnW e w).1.groupEntities = (despawnGroups e w).groupEntities := by
      unfold despawnW
      simp only [he, if_true]
      cases aget (despawnGroups e w).components e <;> rfl
    rw [this] at hx
    exact despawnGroups_members_sub e w g x hx
  · rw [despawnW_dead_id he] at hx
    exact hx

/-! ## What the despawn loop of a full `revert` does -/

theorem dfold_char {V : Type} (S : List (Nat × List (Nat × V))) (L : List Nat) :
    ∀ w : World V, WF w →
      (∀ x, x ∈ (L.foldl (fun acc e => if ahas S e then acc else (despawnW e acc).1) w).entities ↔
        (x ∈ w.entities ∧ (x ∉ L ∨ ahas S x = true))) ∧
      (∀ x, x ∈ (L.foldl (fun acc e => if ahas S e then acc else (despawnW e acc).1) w).entities →
        aget (L.foldl (fun acc e => if ahas S e then acc else (despawnW e acc).1) w).components x
          = aget w.components x) ∧
      (∀ x, x ∉ w.entities →
        aget (L.foldl (fun acc e => if ahas S e then acc else (despawnW e acc).1) w).entityToGroups x
          = aget w.entityToGroups x) ∧
      (∀ x, x ∈ w.entities → (x ∉ L ∨ ahas S x = true) →
        aget (L.foldl (fun acc e => if ahas S e then acc else (despawnW e acc).1) w).entityToGroups x
          = aget w.entityToGroups x) ∧
      (∀ x, x ∈ w.entities → x ∈ L → ahas S x = false →
        aget (L.foldl (fun acc e => if ahas S e then acc else (despawnW e acc).1) w).entityToGroups x
          = none) ∧
      (∀ g x, x ∈ (aget (L.foldl (fun acc e => if ahas S e then acc else (despawnW e acc).1) w).groupEntities g).getD [] →
        x ∈ (aget w.groupEntities g).getD []) := by
  induction L with
  | nil =>
      intro w h
      refine ⟨?_, ?_, ?_, ?_, ?_, ?_⟩ <;> simp
  | cons e rest ih =>
      intro w h
      simp only [List.foldl_cons]
      by_cases hs : ahas S e
      · simp only [hs, if_true]
        obtain ⟨A1, A2, A3, A4, A5, A6⟩ := ih w h
        refine ⟨?_, A2, A3, ?_, ?_, A6⟩
        · intro x
          rw [A1 x]
          by_cases hxe : x = e
          · subst hxe; simp [hs]
          · simp [hxe]
        · intro x hx hkeep
          refine A4 x hx ?_
          rcases hkeep with hk | hk
          · exact Or.inl (fun hc => hk (by simp [hc]))
          · exact Or.inr hk
        · intro x hx hmem hfalse
          have hxe : x ≠ e := by
            intro hc
            rw [hc] at hfalse
            rw [hfalse] at hs
            exact Bool.noConfusion hs
          exact A5 x hx (by simpa [hxe] using hmem) hfalse
      · simp only [hs, Bool.false_eq_true, if_false]
        have h1 : WF (despawnW e w).1 := WF_despawnW h e
        obtain ⟨A1, A2, A3, A4, A5, A6⟩ := ih (despawnW e w).1 h1
        refine ⟨?_, ?_, ?_, ?_, ?_, ?_⟩
        · intro x
          rw [A1 x, despawnW_entities_mem h]
          by_cases hxe : x = e
          · subst hxe; simp [hs]
          · simp [hxe]
        · intro x hx
          have hx1 : x ∈ (despawnW e w).1.entities := ((A1 x).1 hx).1
          have hxe : x ≠ e := ((despawnW_entities_mem h e x).1 hx1).2
          rw [A2 x hx, despawnW_components h, if_neg hxe]
        · intro x hx
          have hx1 : x ∉ (despawnW e w).1.entities := by
            rw [despawnW_entities_mem h]
            exact fun hc => hx hc.1
          by_cases he : e ∈ w.entities
          · have hxe : x ≠ e := fun hc => hx (hc ▸ he)
            rw [A3 x hx1, despawnW_entityToGroups h e he, if_neg hxe]
          · rw [A3 x hx1, despawnW_dead_id he]
        · intro x hx hkeep
          have hxe : x ≠ e := by
            intro hc
            subst hc
            rcases hkeep with hk | hk
            · exact hk (by simp)
            · rw [hk] at hs; exact hs rfl
          have hx1 : x ∈ (despawnW e w).1.entities :=
            (despawnW_entities_mem h e x).2 ⟨hx, hxe⟩
          have hkeep1 : x ∉ rest ∨ ahas S x = true := by
            rcases hkeep with hk | hk
            · exact Or.inl (fun hc => hk (by simp [hc]))
            · exact Or.inr hk
          by_cases he : e ∈ w.entities
          · rw [A4 x hx1 hkeep1, despawnW_entityToGroups h e he, if_neg hxe]
          · rw [A4 x hx1 hkeep1, despawnW_dead_id he]
        · intro x hx hmem hfalse
          by_cases hxe : x = e
          · subst hxe
            have hx1 : x ∉ (despawnW x w).1.entities := by
              rw [despawnW_entities_mem h]
              simp
            rw [A3 x hx1, despawnW_entityToGroups h x hx, if_pos rfl]
          · have hx1 : x ∈ (despawnW e w).1.entities :=
              (despawnW_entities_mem h e x).2 ⟨hx, hxe⟩
            have hmem1 : x ∈ rest := by simpa [hxe] using hmem
            exact A5 x hx1 hmem1 hfalse
        · intro g x hx
          exact despawnW_members_sub e w g x (A6 g x hx)

/-! ## What the restore loop of a full `revert` does -/

theorem aget_mem_nodup {K V : Type} [DecidableEq K] {t : List (K × V)}
    (hnd : (akeys t).Nodup) {p : K × V} (hp : p ∈ t) : aget t p.1 = some p.2 := by
  induction t with
  | nil => simp at hp
  | cons q rest ih =>
      obtain ⟨k1, v1⟩ := q
      have hcons : (k1 :: akeys rest).Nodup := by simpa [akeys] using hnd
      rcases List.mem_cons.1 hp with hh | hh
      · subst hh; simp
      · have hpk : p.1 ∈ akeys rest := by
          simp only [akeys]
          exact List.mem_map.2 ⟨p, hh, rfl⟩
        have hne : p.1 ≠ k1 := by
          intro hc
          rw [hc] at hpk
          exact (List.nodup_cons.1 hcons).1 hpk
        rw [aget_cons, if_neg (fun hc => hne hc.symm)]
        exact ih (List.nodup_cons.1 hcons).2 hh

theorem revertGo_full_char {V : Type} (filter : Option (List Nat))
    (L : List (Nat × List (Nat × V))) :
    ∀ w : World V, WF w → (akeys L).Nodup → (∀ p ∈ L, (akeys p.2).Nodup) →
      (∀ x, x ∈ (revertGo false filter L w).entities ↔
        (x ∈ w.entities ∨ ∃ t, (x, t) ∈ L ∧ t ≠ [])) ∧
      (∀ x t, (x, t) ∈ L → x ∈ (revertGo false filter L w).entities →
        ∃ cur, aget (revertGo false filter L w).components x = some cur ∧
          (∀ c, aget cur c = aget t c) ∧
          (∀ c, ahas cur c = true → ahas t c = true)) ∧
      (∀ x, x ∉ akeys L → aget (revertGo false filter L w).components x = aget w.components x) := by
  induction L with
  | nil =>
      intro w h _ _
      refine ⟨?_, ?_, ?_⟩ <;> simp [revertGo]
  | cons p rest ih =>
      intro w h hnd htbl
      obtain ⟨e, t⟩ := p
      have hcons : (e :: akeys rest).Nodup := by simpa [akeys] using hnd
      have hndr : (akeys rest).Nodup := (List.nodup_cons.1 hcons).2
      have henotin : e ∉ akeys rest := (List.nodup_cons.1 hcons).1
      have htblr : ∀ q ∈ rest, (akeys q.2).Nodup := fun q hq => htbl q (by simp [hq])
      have htblh : (akeys t).Nodup := htbl (e, t) (by simp)
      by_cases he : e ∈ w.entities
      · obtain ⟨cur0, hc, hndc⟩ := h.live_table he
        have hW1 : WF { w with components := aset w.components e (restoreTable false filter t cur0) } :=
          WF_aset_table h he (restoreTable_nodup _ _ _ _ hndc)
        obtain ⟨A1, A2, A3⟩ := ih _ hW1 hndr htblr
        have hred : revertGo false filter ((e, t) :: rest) w =
            revertGo false filter rest { w with components := aset w.components e (restoreTable false filter t cur0) } := by
          simp [revertGo, he, hc]
        rw [hred]
        refine ⟨?_, ?_, ?_⟩
        · intro x
          rw [A1 x]
          constructor
          · rintro (hx | ⟨t2, ht2, hne⟩)
            · exact Or.inl hx
            · exact Or.inr ⟨t2, by simp [ht2], hne⟩
          · rintro (hx | ⟨t2, ht2, hne⟩)
            · exact Or.inl hx
            · rcases List.mem_cons.1 ht2 with hh | hh
              · have hx1 : x = e := congrArg Prod.fst hh
                exact Or.inl (by rw [hx1]; exact he)
              · exact Or.inr ⟨t2, hh, hne⟩
        · intro x t2 hmem hx
          rcases List.mem_cons.1 hmem with hh | hh
          · have hx1 : x = e := congrArg Prod.fst hh
            have ht1 : t2 = t := congrArg Prod.snd hh
            refine ⟨restoreTable false filter t cur0, ?_, ?_, ?_⟩
            · rw [hx1, A3 e henotin]
              exact aget_aset_self _ _ _
            · intro c
              rw [ht1]
              exact restoreTable_full_lookup filter t cur0 htblh c
            · intro c
              rw [ht1]
              exact restoreTable_full_dom filter t cur0 c
          · exact A2 x t2 hh hx
        · intro x hx
          have hxe : x ≠ e := by
            intro hc2
            exact hx (by simp [akeys, hc2])
          have hxr : x ∉ akeys rest := fun hc2 => hx (by simp [akeys] at hc2 ⊢; exact Or.inr hc2)
          rw [A3 x hxr]
          exact aget_aset_ne _ _ _ _ (fun hc2 => hxe hc2.symm)
      · by_cases hsc : t.isEmpty
        · have htnil : t = [] := by simpa using hsc
          obtain ⟨A1, A2, A3⟩ := ih w h hndr htblr
          have hred : revertGo false filter ((e, t) :: rest) w =
              revertGo false filter rest w := by
            simp [revertGo, he, hsc]
          rw [hred]
          refine ⟨?_, ?_, ?_⟩
          · intro x
            rw [A1 x]
            constructor
            · rintro (hx | ⟨t2, ht2, hne⟩)
              · exact Or.inl hx
              · exact Or.inr ⟨t2, by simp [ht2], hne⟩
            · rintro (hx | ⟨t2, ht2, hne⟩)
              · exact Or.inl hx
              · rcases List.mem_cons.1 ht2 with hh | hh
                · have ht1 : t2 = t := congrArg Prod.snd hh
                  rw [ht1] at hne
                  exact absurd htnil hne
                · exact Or.inr ⟨t2, hh, hne⟩
          · intro x t2 hmem hx
            rcases List.mem_cons.1 hmem with hh | hh
            · have hx1 : x = e := congrArg Prod.fst hh
              rw [hx1] at hx
              rcases (A1 e).1 hx with hx2 | ⟨t3, ht3, hne3⟩
              · exact absurd hx2 he
              · refine absurd ?_ henotin
                simp only [akeys]
                exact List.mem_map.2 ⟨(e, t3), ht3, rfl⟩
            · exact A2 x t2 hh hx
          · intro x hx
            have hxr : x ∉ akeys rest := fun hc2 => hx (by simp [akeys] at hc2 ⊢; exact Or.inr hc2)
            exact A3 x hxr
        · have hres : aget (resurrect e w).components e = some ([] : List (Nat × V)) := by
            simp [resurrect, aget_aset_self]
          have he1 : e ∈ (resurrect e w).entities := mem_sadd_self _ e
          have hW1 : WF { resurrect e w with components := aset (resurrect e w).components e (restoreTable false filter t []) } :=
            WF_aset_table (WF_resurrect h e) he1 (restoreTable_nodup _ _ _ _ (by simp [akeys]))
          obtain ⟨A1, A2, A3⟩ := ih _ hW1 hndr htblr
          have hred : revertGo false filter ((e, t) :: rest) w =
              revertGo false filter rest { resurrect e w with components := aset (resurrect e w).components e (restoreTable false filter t []) } := by
            rw [revertGo]
            simp only [he, if_false, hsc, hres, Bool.false_eq_true]
          rw [hred]
          refine ⟨?_, ?_, ?_⟩
          · intro x
            rw [A1 x]
            constructor
            · rintro (hx | ⟨t2, ht2, hne⟩)
              · show x ∈ w.entities ∨ _
                rcases (mem_sadd_iff _ _ _).1 hx with hx2 | hx2
                · exact Or.inl hx2
                · exact Or.inr ⟨t, by simp [hx2], by simpa using hsc⟩
              · exact Or.inr ⟨t2, by simp [ht2], hne⟩
            · rintro (hx | ⟨t2, ht2, hne⟩)
              · exact Or.inl ((mem_sadd_iff _ _ _).2 (Or.inl hx))
              · rcases List.mem_cons.1 ht2 with hh | hh
                · have hx1 : x = e := congrArg Prod.fst hh
                  rw [hx1]
                  exact Or.inl (mem_sadd_self _ _)
                · exact Or.inr ⟨t2, hh, hne⟩
          · intro x t2 hmem hx
            rcases List.mem_cons.1 hmem with hh | hh
            · have hx1 : x = e := congrArg Prod.fst hh
              have ht1 : t2 = t := congrArg Prod.snd hh
              refine ⟨restoreTable false filter t [], ?_, ?_, ?_⟩
              · rw [hx1, A3 e henotin]
                exact aget_aset_self _ _ _
              · intro c
                rw [ht1]
                exact restoreTable_full_lookup filter t [] htblh c
              · intro c
                rw [ht1]
                exact restoreTable_full_dom filter t [] c
            · exact A2 x t2 hh hx
          · intro x hx
            have hxe : x ≠ e := by
              intro hc2
              exact hx (by simp [akeys, hc2])
            have hxr : x ∉ akeys rest := fun hc2 => hx (by simp [akeys] at hc2 ⊢; exact Or.inr hc2)
            rw [A3 x hxr]
            show aget (aset (aset w.components e []) e _) x = _
            rw [aget_aset_ne _ _ _ _ (fun hc2 => hxe hc2.symm),
              aget_aset_ne _ _ _ _ (fun hc2 => hxe hc2.symm)]

/-! ## What the restore loop of a filtered `revert` does -/

theorem revertGo_part_char {V : Type} (fl : List Nat)
    (L : List (Nat × List (Nat × V))) :
    ∀ w : World V, WF w →
      (∀ x, x ∈ (revertGo true (some fl) L w).entities ↔
        (x ∈ w.entities ∨ ∃ t, (x, t) ∈ L ∧ t ≠ [])) ∧
      (∀ x c, c ∉ fl → ownGet (revertGo true (some fl) L w) x c = ownGet w x c) ∧
      (∀ x c, ahas ((aget w.components x).getD []) c = true →
        ahas ((aget (revertGo true (some fl) L w).components x).getD []) c = true) := by
  induction L with
  | nil =>
      intro w h
      refine ⟨?_, ?_, ?_⟩ <;> simp [revertGo]
  | cons p rest ih =>
      intro w h
      obtain ⟨e, t⟩ := p
      by_cases he : e ∈ w.entities
      · obtain ⟨cur0, hc, hndc⟩ := h.live_table he
        have hW1 : WF { w with components := aset w.components e (restoreTable true (some fl) t cur0) } :=
          WF_aset_table h he (restoreTable_nodup _ _ _ _ hndc)
        obtain ⟨A1, A2, A3⟩ := ih _ hW1
        have hred : revertGo true (some fl) ((e, t) :: rest) w =
            revertGo true (some fl) rest { w with components := aset w.components e (restoreTable true (some fl) t cur0) } := by
          simp [revertGo, he, hc]
        rw [hred]
        refine ⟨?_, ?_, ?_⟩
        · intro x
          rw [A1 x]
          constructor
          · rintro (hx | ⟨t2, ht2, hne⟩)
            · exact Or.inl hx
            · exact Or.inr ⟨t2, by simp [ht2], hne⟩
          · rintro (hx | ⟨t2, ht2, hne⟩)
            · exact Or.inl hx
            · rcases List.mem_cons.1 ht2 with hh | hh
              · have hx1 : x = e := congrArg Prod.fst hh
                exact Or.inl (by rw [hx1]; exact he)
              · exact Or.inr ⟨t2, hh, hne⟩
        · intro x c hcfl
          rw [A2 x c hcfl]
          by_cases hxe : x = e
          · subst hxe
            simp only [ownGet, aget_aset_self, Option.bind, hc]
            exact restoreTable_part_skip fl t cur0 c hcfl
          · simp only [ownGet]
            rw [aget_aset_ne _ _ _ _ (fun hc2 => hxe hc2.symm)]
        · intro x c hhas
          refine A3 x c ?_
          by_cases hxe : x = e
          · subst hxe
            rw [hc] at hhas
            simp only [Option.getD] at hhas
            rw [aget_aset_self]
            simp only [Option.getD]
            exact restoreTable_part_has_mono fl t cur0 c hhas
          · rw [aget_aset_ne _ _ _ _ (fun hc2 => hxe hc2.symm)]
            exact hhas
      · by_cases hsc : t.isEmpty
        · obtain ⟨A1, A2, A3⟩ := ih w h
          have htnil : t = [] := by simpa using hsc
          have hred : revertGo true (some fl) ((e, t) :: rest) w =
              revertGo true (some fl) rest w := by
            simp [revertGo, he, hsc]
          rw [hred]
          refine ⟨?_, A2, A3⟩
          intro x
          rw [A1 x]
          constructor
          · rintro (hx | ⟨t2, ht2, hne⟩)
            · exact Or.inl hx
            · exact Or.inr ⟨t2, by simp [ht2], hne⟩
          · rintro (hx | ⟨t2, ht2, hne⟩)
            · exact Or.inl hx
            · rcases List.mem_cons.1 ht2 with hh | hh
              · have ht1 : t2 = t := congrArg Prod.snd hh
                rw [ht1] at hne
                exact absurd htnil hne
              · exact Or.inr ⟨t2, hh, hne⟩
        · have hres : aget (resurrect e w).components e = some ([] : List (Nat × V)) := by
            simp [resurrect, aget_aset_self]
          have he1 : e ∈ (resurrect e w).entities := mem_sadd_self _ e
          have hW1 : WF { resurrect e w with components := aset (resurrect e w).components e (restoreTable true (some fl) t []) } :=
            WF_aset_table (WF_resurrect h e) he1 (restoreTable_nodup _ _ _ _ (by simp [akeys]))
          obtain ⟨A1, A2, A3⟩ := ih _ hW1
          have hred : revertGo true (some fl) ((e, t) :: rest) w =
              revertGo true (some fl) rest { resurrect e w with components := aset (resurrect e w).components e (restoreTable true (some fl) t []) } := by
            rw [revertGo]
            simp only [he, if_false, hsc, hres, Bool.false_eq_true]
          rw [hred]
          refine ⟨?_, ?_, ?_⟩
          · intro x
            rw [A1 x]
            constructor
            · rintro (hx | ⟨t2, ht2, hne⟩)
              · show x ∈ w.entities ∨ _
                rcases (mem_sadd_iff _ _ _).1 hx with hx2 | hx2
                · exact Or.inl hx2
                · exact Or.inr ⟨t, by simp [hx2], by simpa using hsc⟩
              · exact Or.inr ⟨t2, by simp [ht2], hne⟩
            · rintro (hx | ⟨t2, ht2, hne⟩)
              · exact Or.inl ((mem_sadd_iff _ _ _).2 (Or.inl hx))
              · rcases List.mem_cons.1 ht2 with hh | hh
                · have hx1 : x = e := congrArg Prod.fst hh
                  rw [hx1]
                  exact Or.inl (mem_sadd_self _ _)
                · exact Or.inr ⟨t2, hh, hne⟩
          · intro x c hcfl
            rw [A2 x c hcfl]
            by_cases hxe : x = e
            · subst hxe
              simp only [ownGet, aget_aset_self, Option.bind, h.dead_none he]
              rw [restoreTable_part_skip fl t [] c hcfl]
              simp
            · simp only [ownGet]
              show (aget (aset (aset w.components e []) e _) x).bind _ = _
              rw [aget_aset_ne _ _ _ _ (fun hc2 => hxe hc2.symm),
                aget_aset_ne _ _ _ _ (fun hc2 => hxe hc2.symm)]
          · intro x c hhas
            refine A3 x c ?_
            by_cases hxe : x = e
            · subst hxe
              rw [h.dead_none he] at hhas
              simp at hhas
            · show ahas ((aget (aset (aset w.components e []) e _) x).getD []) c = true
              rw [aget_aset_ne _ _ _ _ (fun hc2 => hxe hc2.symm),
                aget_aset_ne _ _ _ _ (fun hc2 => hxe hc2.symm)]
              exact hhas

/-! ## Replaying a full revert is the identity -/

theorem dfold_id {V : Type} (S : List (Nat × List (Nat × V))) (L : List Nat) :
    ∀ w : World V, (∀ e ∈ L, ahas S e = true) →
      L.foldl (fun acc e => if ahas S e then acc else (despawnW e acc).1) w = w := by
  induction L with
  | nil => intro w _; rfl
  | cons e rest ih =>
      intro w hall
      simp only [List.foldl_cons, hall e (by simp), if_true]
      exact ih w (fun e2 h2 => hall e2 (by simp [h2]))

/-- Restoring a table that already agrees with the capture changes nothing. -/
theorem restoreTable_id {V : Type} (filter : Option (List Nat)) (t cur : List (Nat × V))
    (hndt : (akeys t).Nodup)
    (hval : ∀ c, aget cur c = aget t c)
    (hdom : ∀ c, ahas cur c = true → ahas t c = true) :
    restoreTable false filter t cur = cur := by
  simp only [restoreTable]
  rw [if_neg (by simp : ¬ (false = true))]
  have hfil : cur.filter (fun p => ahas t p.1) = cur := by
    apply List.filter_eq_self.2
    intro p hp
    exact hdom p.1 ((ahas_iff_mem_akeys cur p.1).2 (List.mem_map.2 ⟨p, hp, rfl⟩))
  rw [hfil]
  apply foldl_guard_aset_id
  intro p hp
  rw [hval p.1]
  exact aget_mem_nodup hndt hp

theorem revertGo_id {V : Type} (filter : Option (List Nat))
    (L : List (Nat × List (Nat × V))) :
    ∀ w : World V,
      (∀ p ∈ L, (akeys p.2).Nodup) →
      (∀ e t, (e, t) ∈ L →
        (e ∈ w.entities → ∃ cur, aget w.components e = some cur ∧
          (∀ c, aget cur c = aget t c) ∧ (∀ c, ahas cur c = true → ahas t c = true)) ∧
        (e ∉ w.entities → t = [])) →
      revertGo false filter L w = w := by
  induction L with
  | nil => intro w _ _; rfl
  | cons p rest ih =>
      intro w htbl hyp
      obtain ⟨e, t⟩ := p
      by_cases he : e ∈ w.entities
      · obtain ⟨cur, hc, hval, hdom⟩ := (hyp e t (by simp)).1 he
        have hid : restoreTable false filter t cur = cur :=
          restoreTable_id filter t cur (htbl (e, t) (by simp)) hval hdom
        have hcomp : aset w.components e (restoreTable false filter t cur) = w.components := by
          rw [hid]
          exact aset_aget_self _ _ _ hc
        have hred : revertGo false filter ((e, t) :: rest) w = revertGo false filter rest w := by
          rw [revertGo]
          simp only [he, if_true, hc, hcomp]
        rw [hred]
        exact ih w (fun q hq => htbl q (by simp [hq])) (fun e2 t2 h2 => hyp e2 t2 (by simp [h2]))
      · have htnil : t = [] := (hyp e t (by simp)).2 he
        have hred : revertGo false filter ((e, t) :: rest) w = revertGo false filter rest w := by
          rw [revertGo]
          simp [he, htnil]
        rw [hred]
        exact ih w (fun q hq => htbl q (by simp [hq])) (fun e2 t2 h2 => hyp e2 t2 (by simp [h2]))

/-! ## The shape of a full snapshot -/

theorem ahas_append {K V : Type} [DecidableEq K] (a b : List (K × V)) (k : K) :
    ahas (a ++ b) k = (ahas a k || ahas b k) := by
  induction a with
  | nil => simp
  | cons p r ih =>
      obtain ⟨k1, v1⟩ := p
      simp [ih, Bool.or_assoc]

theorem aset_append_of_not_has {K V : Type} [DecidableEq K] {m : List (K × V)} {k : K}
    (v : V) (h : ahas m k = false) : aset m k v = m ++ [(k, v)] := by
  induction m with
  | nil => rfl
  | cons p r ih =>
      obtain ⟨k1, v1⟩ := p
      simp only [ahas_cons, Bool.or_eq_false_iff, decide_eq_false_iff_not] at h
      simp [aset, h.1, ih h.2]

theorem foldl_aset_append {V : Type} (t : List (Nat × V)) :
    ∀ acc : List (Nat × V), (akeys t).Nodup → (∀ k ∈ akeys t, ahas acc k = false) →
      t.foldl (fun cl p => aset cl p.1 p.2) acc = acc ++ t := by
  induction t with
  | nil => intro acc _ _; simp
  | cons p rest ih =>
      intro acc hnd hfresh
      obtain ⟨k1, v1⟩ := p
      have hcons : (k1 :: akeys rest).Nodup := by simpa [akeys] using hnd
      simp only [List.foldl_cons]
      rw [aset_append_of_not_has v1 (hfresh k1 (by simp [akeys]))]
      rw [ih (acc ++ [(k1, v1)]) (List.nodup_cons.1 hcons).2 ?_]
      · simp
      · intro k hk
        rw [ahas_append]
        have hk1 : k ≠ k1 := by
          intro hc
          rw [hc] at hk
          exact (List.nodup_cons.1 hcons).1 hk
        rw [hfresh k (by simp [akeys]; right; simpa [akeys] using hk)]
        simp [Ne.symm hk1]

/-- The clone loop of the full-capture branch rebuilds the table exactly. -/
theorem rebuild_eq {V : Type} (t : List (Nat × V)) (hnd : (akeys t).Nodup) :
    t.foldl (fun cl p => aset cl p.1 p.2) [] = t := by
  simpa using foldl_aset_append t [] hnd (by simp)

theorem snapfold_eq {V : Type} (cm : List (Nat × List (Nat × V))) (L : List Nat) :
    ∀ st : List (Nat × List (Nat × V)), L.Nodup →
      (∀ e ∈ L, ∃ t, aget cm e = some t ∧ (akeys t).Nodup) →
      (∀ e ∈ L, ahas st e = false) →
      L.foldl (fun st e =>
        match aget cm e with
        | none => st
        | some comps => aset st e (comps.foldl (fun cl p => aset cl p.1 p.2) [])) st
      = st ++ L.map (fun e => (e, (aget cm e).getD [])) := by
  induction L with
  | nil => intro st _ _ _; simp
  | cons e rest ih =>
      intro st hnd hlive hfresh
      obtain ⟨t, ht, hndt⟩ := hlive e (by simp)
      simp only [List.foldl_cons, ht]
      rw [rebuild_eq t hndt, aset_append_of_not_has t (hfresh e (by simp))]
      rw [ih (st ++ [(e, t)]) (List.nodup_cons.1 hnd).2
        (fun e2 h2 => hlive e2 (by simp [h2])) ?_]
      · simp [ht]
      · intro e2 h2
        rw [ahas_append]
        have hne : e2 ≠ e := by
          intro hc
          rw [hc] at h2
          exact (List.nodup_cons.1 hnd).1 h2
        rw [hfresh e2 (by simp [h2])]
        simp [Ne.symm hne]

/-- In a well-formed world the full snapshot captures exactly the graph of
the live component tables, in entity order. -/
theorem snapshot_full_entityStates {V : Type} (w : World V) (h : WF w) :
    (snapshotW w none).entityStates =
      w.entities.map (fun e => (e, (aget w.components e).getD [])) := by
  simp only [snapshotW, createSnapshot]
  have := snapfold_eq w.components w.entities [] h.2.2.1
    (fun e he => by
      obtain ⟨t, ht, hndt⟩ := h.live_table he
      exact ⟨t, ht, hndt⟩)
    (fun e _ => rfl)
  simpa using this

theorem akeys_map_graph {V : Type} (l : List Nat) (f : Nat → V) :
    akeys (l.map (fun e => (e, f e))) = l := by
  induction l with
  | nil => rfl
  | cons e rest ih => simp [akeys] at ih ⊢; simpa [akeys] using ih

theorem aget_map_graph {V : Type} (l : List Nat) (f : Nat → V) (x : Nat) :
    aget (l.map (fun e => (e, f e))) x = if x ∈ l then some (f x) else none := by
  induction l with
  | nil => simp
  | cons e rest ih =>
      by_cases hxe : e = x
      · subst hxe; simp
      · simp only [List.map_cons, aget_cons, if_neg hxe, ih]
        have : x ≠ e := fun hc => hxe hc.symm
        simp [this]

theorem mem_map_graph {V : Type} {l : List Nat} {f : Nat → V} {x : Nat} {v : V}
    (h : (x, v) ∈ l.map (fun e => (e, f e))) : x ∈ l ∧ v = f x := by
  obtain ⟨e, he, heq⟩ := List.mem_map.1 h
  have h1 : e = x := congrArg Prod.fst heq
  have h2 : f e = v := congrArg Prod.snd heq
  constructor
  · rw [← h1]; exact he
  · rw [← h2, h1]

/-- C6: reverting a snapshot that carries a non-empty component filter never
despawns an entity, never removes a component from any entity, and never
changes the value of a component outside the filter; its only effects are to
add or overwrite filtered components on the captured entities, re-creating a
captured entity exactly when it is dead and its captured table is non-empty.
Group state and the archetype index are untouched. -/
theorem c6_partial_revert_frame {V : Type} (snap : Snap V) (fl : List Nat)
    (hfl : snap.components = some fl) (hne : fl ≠ []) (w : World V) (hWF : WF w) :
    (∀ e ∈ w.entities, e ∈ (revertW snap w).entities) ∧
    (∀ e, e ∈ (revertW snap w).entities ↔
      (e ∈ w.entities ∨ ∃ t, (e, t) ∈ snap.entityStates ∧ t ≠ [])) ∧
    (∀ e c, c ∉ fl → ownGet (revertW snap w) e c = ownGet w e c) ∧
    (∀ e c, ahas ((aget w.components e).getD []) c = true →
      ahas ((aget (revertW snap w).components e).getD []) c = true) ∧
    (revertW snap w).groupComponents = w.groupComponents ∧
    (revertW snap w).groupEntities = w.groupEntities ∧
    (revertW snap w).entityToGroups = w.entityToGroups ∧
    (revertW snap w).archetypeToEntities = w.archetypeToEntities := by
  have hfilt : snapIsFiltered snap = true := by
    simp [snapIsFiltered, hfl, hne]
  have hrev : revertW snap w = revertGo true (some fl) snap.entityStates w := by
    simp only [revertW, hfilt, if_true, hfl]
  obtain ⟨A1, A2, A3⟩ := revertGo_part_char fl snap.entityStates w hWF
  obtain ⟨E, C, hshape⟩ := revertGo_shape true (some fl) snap.entityStates w
  rw [hrev]
  refine ⟨?_, A1, A2, A3, ?_, ?_, ?_, ?_⟩
  · intro e he
    exact (A1 e).2 (Or.inl he)
  · rw [hshape]
  · rw [hshape]
  · rw [hshape]
  · rw [hshape]

/-- Witness for C6 on a concrete world: entity 1 carries components 1 and 2;
a snapshot filtered to component 1 is taken, component 2 is then changed and
component 1 removed; the filtered revert restores component 1 but leaves the
out-of-filter component 2 at its new value, removes nothing, and despawns
nothing. -/
theorem c6_partial_revert_witness :
    ownGet (revertW (snapshotW (run [.spawn, .set 1 1 11, .set 1 2 22]).w (some [1]))
        (run [.spawn, .set 1 1 11, .set 1 2 22, .snap (some [1]), .set 1 2 99, .remove 1 1]).w) 1 2 =
      ownGet (run [.spawn, .set 1 1 11, .set 1 2 22, .snap (some [1]), .set 1 2 99, .remove 1 1]).w 1 2 ∧
    (1 : Nat) ∈ (revertW (snapshotW (run [.spawn, .set 1 1 11, .set 1 2 22]).w (some [1]))
        (run [.spawn, .set 1 1 11, .set 1 2 22, .snap (some [1]), .set 1 2 99, .remove 1 1]).w).entities := by
  have h := c6_partial_revert_frame
    (snapshotW (run [.spawn, .set 1 1 11, .set 1 2 22]).w (some [1])) [1] rfl
    (by decide)
    (run [.spawn, .set 1 1 11, .set 1 2 22, .snap (some [1]), .set 1 2 99, .remove 1 1]).w
    (WF_reachable [.spawn, .set 1 1 11, .set 1 2 22, .snap (some [1]), .set 1 2 99, .remove 1 1])
  exact ⟨h.2.2.1 1 2 (by decide), h.1 1 (by decide)⟩

/-- C9 (amended): `revert` never touches any group's component table, and
for a filtered snapshot it changes no group membership at all.  For a full
snapshot the only membership changes are those performed by the despawns of
live entities absent from the capture: a dead entity's reverse-index entry
is untouched — so an entity re-created by revert keeps exactly the group
memberships its id had immediately before the revert (empty unless a
group-add was performed on the dead id), a still-captured live entity keeps
its memberships, a despawned entity ends with none, and group member sets
only ever shrink. -/
theorem c9_revert_group_frame {V : Type} (snap : Snap V) (w : World V) (hWF : WF w) :
    (revertW snap w).groupComponents = w.groupComponents ∧
    (snapIsFiltered snap = true →
      (revertW snap w).groupEntities = w.groupEntities ∧
      (revertW snap w).entityToGroups = w.entityToGroups) ∧
    (∀ e, e ∉ w.entities →
      getGroupsForEntity (revertW snap w) e = getGroupsForEntity w e) ∧
    (∀ e, e ∈ w.entities → ahas snap.entityStates e = true →
      aget (revertW snap w).entityToGroups e = aget w.entityToGroups e) ∧
    (snapIsFiltered snap = false →
      ∀ e, e ∈ w.entities → ahas snap.entityStates e = false →
        aget (revertW snap w).entityToGroups e = none) ∧
    (∀ g x, x ∈ (aget (revertW snap w).groupEntities g).getD [] →
      x ∈ (aget w.groupEntities g).getD []) := by
  by_cases hfilt : snapIsFiltered snap
  · have hrev : revertW snap w =
        revertGo (snapIsFiltered snap) snap.components snap.entityStates w := by
      simp only [revertW, hfilt, if_true]
    obtain ⟨E, C, hshape⟩ := revertGo_shape (snapIsFiltered snap) snap.components
      snap.entityStates w
    rw [hrev, hshape]
    refine ⟨rfl, fun _ => ⟨rfl, rfl⟩, fun e _ => rfl, fun e _ _ => rfl, ?_, fun g x hx => hx⟩
    intro hc
    rw [hfilt] at hc
    exact absurd hc (by simp)
  · have hfilt2 : snapIsFiltered snap = false := Bool.eq_false_iff.2 hfilt
    have hrev : revertW snap w =
        revertGo (snapIsFiltered snap) snap.components snap.entityStates
          (w.entities.foldl (fun acc e =>
            if ahas snap.entityStates e then acc else (despawnW e acc).1) w) := by
      simp only [revertW, hfilt2, Bool.false_eq_true, if_false]
    obtain ⟨D1, D2, D3, D4, D5, D6⟩ := dfold_char snap.entityStates w.entities w hWF
    obtain ⟨E, C, hshape⟩ := revertGo_shape (snapIsFiltered snap) snap.components
      snap.entityStates
      (w.entities.foldl (fun acc e =>
        if ahas snap.entityStates e then acc else (despawnW e acc).1) w)
    rw [hrev, hshape]
    have hgc : (w.entities.foldl (fun acc e => if ahas snap.entityStates e then acc else (despawnW e acc).1) w).groupComponents = w.groupComponents := by
      obtain ⟨E1, C1, GE1, EG1, hd⟩ := dfold_shape snap.entityStates w.entities w
      rw [hd]
    refine ⟨hgc, ?_, ?_, ?_, ?_, ?_⟩
    · intro hc
      rw [hfilt2] at hc
      exact absurd hc (by simp)
    · intro e he
      show ((aget (w.entities.foldl (fun acc e => if ahas snap.entityStates e then acc else (despawnW e acc).1) w).entityToGroups e).getD []) = getGroupsForEntity w e
      rw [D3 e he]
      rfl
    · intro e he hhas
      exact D4 e he (Or.inr hhas)
    · intro _ e he hhas
      exact D5 e he he hhas
    · intro g x hx
      exact D6 g x hx

/-- Witness for the amended C9 on a concrete world: entity 1 is captured,
despawned, and its dead id is added to group 1; after the full revert the
re-created entity has exactly the membership recorded just before the
revert, the group's component table is unchanged, and the group's member
set shrank or stayed within its old members. -/
theorem c9_revert_group_frame_witness :
    getGroupsForEntity (revertW
        (snapshotW (run [.spawn, .set 1 1 5]).w none)
        (run [.spawn, .set 1 1 5, .createGroup, .despawn 1, .groupAdd 1 1]).w) 1 =
      getGroupsForEntity (run [.spawn, .set 1 1 5, .createGroup, .despawn 1, .groupAdd 1 1]).w 1 ∧
    (revertW (snapshotW (run [.spawn, .set 1 1 5]).w none)
        (run [.spawn, .set 1 1 5, .createGroup, .despawn 1, .groupAdd 1 1]).w).groupComponents =
      (run [.spawn, .set 1 1 5, .createGroup, .despawn 1, .groupAdd 1 1]).w.groupComponents := by
  have h := c9_revert_group_frame
    (snapshotW (run [.spawn, .set 1 1 5]).w none)
    (run [.spawn, .set 1 1 5, .createGroup, .despawn 1, .groupAdd 1 1]).w
    (WF_reachable [.spawn, .set 1 1 5, .createGroup, .despawn 1, .groupAdd 1 1])
  exact ⟨h.2.2.1 1 (by decide), h.1⟩

/-- C3 (amended): capture a full snapshot of a well-formed world, run any
sequence of operations, and revert.  The revert restores exactly the
own-table component state: `get`/`has` restricted to an entity's own table
are restored for every entity and component; validity is restored for every
entity except one captured with an empty component table and dead at revert
time (such an entity is not resurrected — the membership characterization
below makes this exact); and a second revert of the same snapshot is the
identity on the whole world state.  (Group-overlay contributions to the
public `get`/`has` are not restored, because group membership is not
captured; see the C3 counterexample and C9.) -/
theorem c3_full_roundtrip_amended {V : Type} (w0 : World V) (hWF : WF w0)
    (ops : List (Op V)) :
    (∀ x, x ∈ (revertW (snapshotW w0 none) (execList ⟨w0, []⟩ ops).w).entities ↔
      (x ∈ w0.entities ∧
        (x ∈ (execList ⟨w0, []⟩ ops).w.entities ∨ (aget w0.components x).getD [] ≠ []))) ∧
    (∀ x c, ownGet (revertW (snapshotW w0 none) (execList ⟨w0, []⟩ ops).w) x c = ownGet w0 x c) ∧
    revertW (snapshotW w0 none) (revertW (snapshotW w0 none) (execList ⟨w0, []⟩ ops).w) =
      revertW (snapshotW w0 none) (execList ⟨w0, []⟩ ops).w := by
  set S0 : Snap V := snapshotW w0 none with hS0def
  set w1 : World V := (execList ⟨w0, []⟩ ops).w with hw1def
  have hWF1 : WF w1 := WF_execList ops ⟨w0, []⟩ hWF
  have hES : S0.entityStates =
      w0.entities.map (fun e => (e, (aget w0.components e).getD [])) :=
    snapshot_full_entityStates w0 hWF
  have hfilt : snapIsFiltered S0 = false := rfl
  have hahas : ∀ x, ahas S0.entityStates x = true ↔ x ∈ w0.entities := by
    intro x
    rw [hES, ahas_iff_mem_akeys, akeys_map_graph]
  have hndk : (akeys S0.entityStates).Nodup := by
    rw [hES, akeys_map_graph]
    exact hWF.2.2.1
  have htbls : ∀ p ∈ S0.entityStates, (akeys p.2).Nodup := by
    intro p hp
    rw [hES] at hp
    obtain ⟨e, he, heq⟩ := List.mem_map.1 hp
    obtain ⟨t, ht, hnd⟩ := hWF.live_table he
    rw [← heq]
    simpa [ht] using hnd
  have hmemES : ∀ x, x ∈ w0.entities →
      (x, (aget w0.components x).getD []) ∈ S0.entityStates := by
    intro x hx
    rw [hES]
    exact List.mem_map.2 ⟨x, hx, rfl⟩
  have hmemES2 : ∀ x t, (x, t) ∈ S0.entityStates →
      x ∈ w0.entities ∧ t = (aget w0.components x).getD [] := by
    intro x t h
    rw [hES] at h
    exact mem_map_graph h
  have hrev : revertW S0 w1 = revertGo false S0.components S0.entityStates
      (w1.entities.foldl (fun acc e =>
        if ahas S0.entityStates e then acc else (despawnW e acc).1) w1) := by
    simp only [revertW, hfilt, Bool.false_eq_true, if_false]
  have hWFd : WF (w1.entities.foldl (fun acc e =>
      if ahas S0.entityStates e then acc else (despawnW e acc).1) w1) :=
    WF_dfold _ _ w1 hWF1
  obtain ⟨D1, D2, D3, D4, D5, D6⟩ := dfold_char S0.entityStates w1.entities w1 hWF1
  obtain ⟨R1, R2, R3⟩ := revertGo_full_char S0.components S0.entityStates _ hWFd hndk htbls
  have hWF2 : WF (revertGo false S0.components S0.entityStates
      (w1.entities.foldl (fun acc e =>
        if ahas S0.entityStates e then acc else (despawnW e acc).1) w1)) :=
    WF_revertGo _ _ _ _ hWFd
  refine ⟨?_, ?_, ?_⟩
  · intro x
    rw [hrev, R1 x]
    constructor
    · rintro (hx | ⟨t, ht, hne⟩)
      · have hD := (D1 x).1 hx
        have hA : ahas S0.entityStates x = true := by
          rcases hD.2 with hh | hh
          · exact absurd hD.1 hh
          · exact hh
        exact ⟨(hahas x).1 hA, Or.inl hD.1⟩
      · obtain ⟨hx0, hteq⟩ := hmemES2 x t ht
        refine ⟨hx0, Or.inr ?_⟩
        rw [← hteq]
        exact hne
    · rintro ⟨hx0, hx1 | htne⟩
      · exact Or.inl ((D1 x).2 ⟨hx1, Or.inr ((hahas x).2 hx0)⟩)
      · exact Or.inr ⟨(aget w0.components x).getD [], hmemES x hx0, htne⟩
  · intro x c
    rw [hrev]
    by_cases hx0 : x ∈ w0.entities
    · obtain ⟨t0, ht0, hndt0⟩ := hWF.live_table hx0
      have hown0 : ownGet w0 x c = aget ((aget w0.components x).getD []) c := by
        simp [ownGet, ht0]
      by_cases hxf : x ∈ (revertGo false S0.components S0.entityStates
          (w1.entities.foldl (fun acc e =>
            if ahas S0.entityStates e then acc else (despawnW e acc).1) w1)).entities
      · obtain ⟨cur, hcur, hval, _⟩ := R2 x _ (hmemES x hx0) hxf
        rw [hown0]
        simp only [ownGet, hcur, Option.bind]
        exact hval c
      · have hte : (aget w0.components x).getD [] = [] := by
          by_contra hne
          exact hxf ((R1 x).2 (Or.inr ⟨_, hmemES x hx0, hne⟩))
        have h2 := hWF2.dead_none hxf
        rw [hown0, hte]
        simp [ownGet, h2]
    · have h0 : aget w0.components x = none := hWF.dead_none hx0
      have hxkeys : x ∉ akeys S0.entityStates := by
        rw [hES, akeys_map_graph]
        exact hx0
      have hxd : x ∉ (w1.entities.foldl (fun acc e =>
          if ahas S0.entityStates e then acc else (despawnW e acc).1) w1).entities := by
        intro hc
        have hD := (D1 x).1 hc
        rcases hD.2 with hh | hh
        · exact hh hD.1
        · exact hx0 ((hahas x).1 hh)
      have hdnone := hWFd.dead_none hxd
      simp only [ownGet, R3 x hxkeys, hdnone, h0, Option.bind]
  · have hsub : ∀ e ∈ (revertW S0 w1).entities, ahas S0.entityStates e = true := by
      intro e he
      rw [hrev] at he
      rcases (R1 e).1 he with hx | ⟨t, ht, _⟩
      · have hD := (D1 e).1 hx
        rcases hD.2 with hh | hh
        · exact absurd hD.1 hh
        · exact hh
      · exact (hahas e).2 (hmemES2 e t ht).1
    have hd2 : (revertW S0 w1).entities.foldl (fun acc e =>
        if ahas S0.entityStates e then acc else (despawnW e acc).1) (revertW S0 w1)
        = revertW S0 w1 := dfold_id _ _ _ hsub
    have hgo : revertGo false S0.components S0.entityStates (revertW S0 w1)
        = revertW S0 w1 := by
      apply revertGo_id S0.components S0.entityStates (revertW S0 w1) htbls
      intro e t hmem
      obtain ⟨he0, hteq⟩ := hmemES2 e t hmem
      constructor
      · intro helive
        rw [hrev] at helive ⊢
        exact R2 e t hmem helive
      · intro hedead
        rw [hrev] at hedead
        by_contra htne
        exact hedead ((R1 e).2 (Or.inr ⟨t, hmem, htne⟩))
    calc revertW S0 (revertW S0 w1)
        = revertGo false S0.components S0.entityStates
            ((revertW S0 w1).entities.foldl (fun acc e =>
              if ahas S0.entityStates e then acc else (despawnW e acc).1)
              (revertW S0 w1)) := by
          simp only [revertW, hfilt, Bool.false_eq_true, if_false]
      _ = revertGo false S0.components S0.entityStates (revertW S0 w1) := by rw [hd2]
      _ = revertW S0 w1 := hgo

/-- Witness for the amended C3 on a concrete run: entity 1 owns component 1
when the full snapshot is captured; component 2 is then added, entity 1
despawned and a new entity spawned.  After the revert entity 1 is live
again with its captured own-table value, the post-snapshot entity 2 is gone,
and a second revert changes nothing. -/
theorem c3_full_roundtrip_witness :
    ownGet (revertW (snapshotW (run [.spawn, .set 1 1 5]).w none)
        (execList ⟨(run [.spawn, .set 1 1 5]).w, []⟩ [.set 1 2 7, .despawn 1, .spawn]).w) 1 1 =
      ownGet (run [.spawn, .set 1 1 5]).w 1 1 ∧
    revertW (snapshotW (run [.spawn, .set 1 1 5]).w none)
        (revertW (snapshotW (run [.spawn, .set 1 1 5]).w none)
          (execList ⟨(run [.spawn, .set 1 1 5]).w, []⟩ [.set 1 2 7, .despawn 1, .spawn]).w) =
      revertW (snapshotW (run [.spawn, .set 1 1 5]).w none)
        (execList ⟨(run [.spawn, .set 1 1 5]).w, []⟩ [.set 1 2 7, .despawn 1, .spawn]).w := by
  have h := c3_full_roundtrip_amended (run [.spawn, .set 1 1 5]).w
    (WF_reachable [.spawn, .set 1 1 5]) [.set 1 2 7, .despawn 1, .spawn]
  exact ⟨h.2.1 1 1, h.2.2⟩

/-- Witness for the amended C5 on concrete handlers: handler 0 disconnects
itself mid-fire, handler 1 disconnects nobody later than itself — both are
invoked, in connection order, with no duplicates. -/
theorem c5_fire_amended_witness :
    (evFire ⟨[(0, [0]), (1, [])], 2⟩).1 = [0, 1] ∧
    (evFire ⟨[(0, [0]), (1, [])], 2⟩).1.Nodup := by
  have h := c5_fire_amended [(0, [0]), (1, [])] 2
  constructor
  · have h2 := h.1 (by decide)
    simpa [akeys] using h2
  · exact h.2 (by decide)

/-- Witness for C7 on a concrete world: entity 1 owns component 2 and sees
component 3 through group 1; `remove 1 2` succeeds while `remove 1 3`
returns false and leaves the whole state (including the group table)
unchanged. -/
theorem c7_remove_witness :
    (removeComp 1 2 (run [.spawn, .set 1 2 5, .createGroup, .groupAdd 1 1, .groupSet 1 3 9]).w).2 = true ∧
    (removeComp 1 3 (run [.spawn, .set 1 2 5, .createGroup, .groupAdd 1 1, .groupSet 1 3 9]).w).1 =
      (run [.spawn, .set 1 2 5, .createGroup, .groupAdd 1 1, .groupSet 1 3 9]).w := by
  constructor
  · exact ((c7_remove_own_table_only
      (run [.spawn, .set 1 2 5, .createGroup, .groupAdd 1 1, .groupSet 1 3 9]).w 1 2).1).2
      ⟨by decide, by decide⟩
  · exact (c7_remove_own_table_only
      (run [.spawn, .set 1 2 5, .createGroup, .groupAdd 1 1, .groupSet 1 3 9]).w 1 3).2.1
      (by decide)

/-- Witness for C10 on a concrete world: adding the never-spawned id 5 to
the freshly created group 1 succeeds; the group and the reverse index both
record it, while `get`/`has` still report the id as absent/invalid. -/
theorem c10_witness :
    5 ∈ (aget (groupAddEntity 1 5 (run [.createGroup]).w).groupEntities 1).getD [] ∧
    1 ∈ getGroupsForEntity (groupAddEntity 1 5 (run [.createGroup]).w) 5 ∧
    getComp (groupAddEntity 1 5 (run [.createGroup]).w) 5 7 = none ∧
    hasComp (groupAddEntity 1 5 (run [.createGroup]).w) 5 7 = false := by
  have h := c10_group_add_no_liveness (run [.createGroup]).w 1 5 [] rfl
    (fun hm => absurd hm (List.not_mem_nil 5))
  exact ⟨h.1, h.2.1, (h.2.2.2 (by decide) 7).1, (h.2.2.2 (by decide) 7).2⟩

end BJecs
